import Mathlib

/-!
Verification of the BSPC (Binary Sparse Matrix Container) library against its
natural-language specification.  The definitions below are a shallow embedding
of the Rust sources in `bspc-core` and `bspc`: byte buffers are `List Nat`
(each entry a byte value), machine integers are `Nat` with explicit `% 2^w`
wherever the Rust code wraps or truncates, and fallible functions return
`Except`.  Each definition names the Rust item it embeds.
-/

/-- Little-endian digit encoding: `leEnc k n` is the `k`-byte little-endian
encoding of `n` (mod `256^k`), the model of Rust's `to_le_bytes`. -/
def leEnc : Nat → Nat → List Nat
  | 0, _ => []
  | k + 1, n => n % 256 :: leEnc k (n / 256)

/-- Little-endian decoding, the model of Rust's `from_le_bytes`. -/
def leDec : List Nat → Nat
  | [] => 0
  | b :: t => b + 256 * leDec t

theorem length_leEnc (k n : Nat) : (leEnc k n).length = k := by
  induction k generalizing n with
  | zero => rfl
  | succ k ih => simp [leEnc, ih]

theorem mem_leEnc_lt (k n b : Nat) (hb : b ∈ leEnc k n) : b < 256 := by
  induction k generalizing n with
  | zero => simp [leEnc] at hb
  | succ k ih =>
    simp only [leEnc, List.mem_cons] at hb
    rcases hb with h | h
    · omega
    · exact ih _ h

theorem leDec_leEnc (k n : Nat) : leDec (leEnc k n) = n % 256 ^ k := by
  induction k generalizing n with
  | zero => simp [leEnc, leDec, Nat.mod_one]
  | succ k ih =>
    simp only [leEnc, leDec, ih]
    rw [pow_succ, mul_comm (256 ^ k) 256, Nat.mod_mul]

theorem leDec_lt (l : List Nat) (hb : ∀ b ∈ l, b < 256) : leDec l < 256 ^ l.length := by
  induction l with
  | nil => simp [leDec]
  | cons b t ih =>
    have hb0 : b < 256 := hb b (by simp)
    have ht := ih (fun x hx => hb x (by simp [hx]))
    simp only [leDec, List.length_cons, pow_succ]
    calc b + 256 * leDec t < 256 + 256 * leDec t := by omega
    _ = 256 * (leDec t + 1) := by ring
    _ ≤ 256 * 256 ^ t.length := by
        have : leDec t + 1 ≤ 256 ^ t.length := ht
        exact Nat.mul_le_mul_left _ this
    _ = 256 ^ t.length * 256 := by ring

/-- 8-byte little-endian encoding of a `u64` (wrapping, as `as u64` does). -/
def u64le (n : Nat) : List Nat := leEnc 8 n

/-- 4-byte little-endian encoding of a `u32` (`as u32` truncates). -/
def u32le (n : Nat) : List Nat := leEnc 4 n

/-- Model of reading a little-endian `u64` at byte offset `off` of a buffer
(the `read_u64` helper in `BspcHeader::from_bytes`). -/
def readU64 (bytes : List Nat) (off : Nat) : Nat := leDec ((bytes.drop off).take 8)

/-- Model of reading a little-endian `u32` at byte offset `off` of a buffer. -/
def readU32 (bytes : List Nat) (off : Nat) : Nat := leDec ((bytes.drop off).take 4)

theorem drop_of_length_eq {α : Type} {A B : List α} {n : Nat} (h : A.length = n) :
    (A ++ B).drop n = B := by
  subst h; exact List.drop_left A B

theorem take_of_length_eq {α : Type} {A B : List α} {n : Nat} (h : A.length = n) :
    (A ++ B).take n = A := by
  subst h; exact List.take_left A B

theorem readU64_concat (P Q : List Nat) (x k : Nat) (hP : P.length = k)
    (hx : x < 2 ^ 64) : readU64 (P ++ (u64le x ++ Q)) k = x := by
  unfold readU64 u64le
  rw [drop_of_length_eq hP, take_of_length_eq (length_leEnc 8 x), leDec_leEnc]
  have : (256 : Nat) ^ 8 = 2 ^ 64 := by norm_num
  rw [this]
  exact Nat.mod_eq_of_lt hx

theorem readU32_concat (P Q : List Nat) (x k : Nat) (hP : P.length = k)
    (hx : x < 2 ^ 32) : readU32 (P ++ (u32le x ++ Q)) k = x := by
  unfold readU32 u32le
  rw [drop_of_length_eq hP, take_of_length_eq (length_leEnc 4 x), leDec_leEnc]
  have : (256 : Nat) ^ 4 = 2 ^ 32 := by norm_num
  rw [this]
  exact Nat.mod_eq_of_lt hx

theorem readU64_lt (bytes : List Nat) (off : Nat) (hb : ∀ b ∈ bytes, b < 256) :
    readU64 bytes off < 2 ^ 64 := by
  have h1 : ∀ b ∈ (bytes.drop off).take 8, b < 256 := fun b hb' =>
    hb b (List.mem_of_mem_drop (List.mem_of_mem_take hb'))
  have h2 := leDec_lt _ h1
  have h3 : ((bytes.drop off).take 8).length ≤ 8 := by
    simp [List.length_take]
  calc readU64 bytes off < 256 ^ ((bytes.drop off).take 8).length := h2
  _ ≤ 256 ^ 8 := Nat.pow_le_pow_right (by norm_num) h3
  _ = 2 ^ 64 := by norm_num

/-! ## Error taxonomy (`bspc-core/src/error.rs`) and the `binsparse_rs` error
type used by the `bspc` crate (`Error::IoError` / `InvalidState` /
`ConversionError`, each carrying a static message). -/

/-- `BspcError` from `bspc-core/src/error.rs`, with the numeric codes. -/
inductive BspcError where
  | InvalidHeader
  | InvalidMetadata
  | UnsupportedFormat
  | CorruptedData
  | IndexOutOfBounds
  | ArraySizeOverflow
  | ArrayAlignment
  | InsufficientBuffer
  | InvalidRange
  | InvalidLabel
  | InvalidElement
  | InvalidChunk
  deriving DecidableEq, Repr

/-- `BspcError::code` (`error.rs`): the `repr(u8)` discriminants. -/
def BspcError.code : BspcError → Nat
  | .InvalidHeader => 1
  | .InvalidMetadata => 2
  | .UnsupportedFormat => 3
  | .CorruptedData => 4
  | .IndexOutOfBounds => 16
  | .ArraySizeOverflow => 17
  | .ArrayAlignment => 18
  | .InsufficientBuffer => 19
  | .InvalidRange => 32
  | .InvalidLabel => 33
  | .InvalidElement => 34
  | .InvalidChunk => 35

/-- The `binsparse_rs::Error` variants used by the `bspc` crate. -/
inductive Err where
  | IoError (msg : String)
  | InvalidState (msg : String)
  | ConversionError (msg : String)
  deriving DecidableEq, Repr

/-! ## `BspcHeader` (`bspc-core/src/format.rs` and `format/header.rs`).
Both files define the same 160-byte layout; `format.rs::from_bytes` validates
the parsed header while `format/header.rs::from_bytes` only checks length and
magic.  Fields are `Nat`; well-formedness (`WF`) captures the Rust types
(`u8`/`u64` ranges, 4-byte magic, 32 reserved bytes). -/

@[ext]
structure BspcHeader where
  magic : List Nat
  version : Nat
  format_type : Nat
  data_type : Nat
  structure_flags : Nat
  nrows : Nat
  ncols : Nat
  nnz : Nat
  values_offset : Nat
  values_size : Nat
  indices_0_offset : Nat
  indices_0_size : Nat
  indices_1_offset : Nat
  indices_1_size : Nat
  pointers_offset : Nat
  pointers_size : Nat
  metadata_offset : Nat
  metadata_size : Nat
  bloom_filter_offset : Nat
  bloom_filter_size : Nat
  reserved : List Nat
  deriving DecidableEq, Repr

/-- The magic bytes `"BSPC"` (`BspcHeader::MAGIC`). -/
def magicBSPC : List Nat := [66, 83, 80, 67]

/-- `BspcHeader::SIZE` = 160 bytes. -/
def headerSIZE : Nat := 160

/-- `BspcHeader::new()`: the default header. -/
def BspcHeader.new : BspcHeader :=
  { magic := magicBSPC, version := 1, format_type := 0, data_type := 0
    structure_flags := 0, nrows := 0, ncols := 0, nnz := 0
    values_offset := 0, values_size := 0, indices_0_offset := 0
    indices_0_size := 0, indices_1_offset := 0, indices_1_size := 0
    pointers_offset := 0, pointers_size := 0, metadata_offset := 0
    metadata_size := 0, bloom_filter_offset := 0, bloom_filter_size := 0
    reserved := List.replicate 32 0 }

/-- Rust-type well-formedness of a header value: the `u8` fields are bytes,
the `u64` fields are below `2^64`, magic is 4 bytes and reserved is 32. -/
def BspcHeader.WF (h : BspcHeader) : Prop :=
  h.magic.length = 4 ∧ (∀ b ∈ h.magic, b < 256) ∧
  h.version < 256 ∧ h.format_type < 256 ∧ h.data_type < 256 ∧
  h.structure_flags < 256 ∧
  h.nrows < 2 ^ 64 ∧ h.ncols < 2 ^ 64 ∧ h.nnz < 2 ^ 64 ∧
  h.values_offset < 2 ^ 64 ∧ h.values_size < 2 ^ 64 ∧
  h.indices_0_offset < 2 ^ 64 ∧ h.indices_0_size < 2 ^ 64 ∧
  h.indices_1_offset < 2 ^ 64 ∧ h.indices_1_size < 2 ^ 64 ∧
  h.pointers_offset < 2 ^ 64 ∧ h.pointers_size < 2 ^ 64 ∧
  h.metadata_offset < 2 ^ 64 ∧ h.metadata_size < 2 ^ 64 ∧
  h.bloom_filter_offset < 2 ^ 64 ∧ h.bloom_filter_size < 2 ^ 64 ∧
  h.reserved.length = 32 ∧ (∀ b ∈ h.reserved, b < 256)

instance (h : BspcHeader) : Decidable h.WF := by
  unfold BspcHeader.WF
  exact inferInstanceAs (Decidable (_ ∧ _))

/-- `BspcHeader::to_bytes` (`format.rs`, identical byte order in
`format/header.rs::to_bytes` and `to_bytes_array`): magic, the four `u8`
fields, the fifteen `u64` fields little-endian, then the 32 reserved bytes. -/
def BspcHeader.toBytes (h : BspcHeader) : List Nat :=
  h.magic
    ++ [h.version, h.format_type, h.data_type, h.structure_flags]
    ++ u64le h.nrows ++ u64le h.ncols ++ u64le h.nnz
    ++ u64le h.values_offset ++ u64le h.values_size
    ++ u64le h.indices_0_offset ++ u64le h.indices_0_size
    ++ u64le h.indices_1_offset ++ u64le h.indices_1_size
    ++ u64le h.pointers_offset ++ u64le h.pointers_size
    ++ u64le h.metadata_offset ++ u64le h.metadata_size
    ++ u64le h.bloom_filter_offset ++ u64le h.bloom_filter_size
    ++ h.reserved

/-- `BspcHeader::is_valid` (`format.rs`): magic, version == 1, non-zero
dimensions, and `nnz <= nrows * ncols` with checked multiplication (a product
at or above `2^64` is the `checked_mul` overflow branch). -/
def BspcHeader.isValid (h : BspcHeader) : Bool :=
  if h.magic ≠ magicBSPC then false
  else if h.version ≠ 1 then false
  else if h.nrows = 0 || h.ncols = 0 then false
  else if 2 ^ 64 ≤ h.nrows * h.ncols then false
  else decide (h.nnz ≤ h.nrows * h.ncols)

/-- `BspcHeader::is_valid` (`format/header.rs`): only magic and
`version <= VERSION`. -/
def BspcHeader.isValidModular (h : BspcHeader) : Bool :=
  h.magic = magicBSPC && h.version ≤ 1

/-- The field-reading part shared by both decoders: little-endian fields at
the fixed offsets of the 160-byte layout. -/
def readHeaderFields (bytes : List Nat) : BspcHeader :=
  { magic := bytes.take 4
    version := bytes.getD 4 0
    format_type := bytes.getD 5 0
    data_type := bytes.getD 6 0
    structure_flags := bytes.getD 7 0
    nrows := readU64 bytes 8
    ncols := readU64 bytes 16
    nnz := readU64 bytes 24
    values_offset := readU64 bytes 32
    values_size := readU64 bytes 40
    indices_0_offset := readU64 bytes 48
    indices_0_size := readU64 bytes 56
    indices_1_offset := readU64 bytes 64
    indices_1_size := readU64 bytes 72
    pointers_offset := readU64 bytes 80
    pointers_size := readU64 bytes 88
    metadata_offset := readU64 bytes 96
    metadata_size := readU64 bytes 104
    bloom_filter_offset := readU64 bytes 112
    bloom_filter_size := readU64 bytes 120
    reserved := (bytes.drop 128).take 32 }

/-- `BspcHeader::from_bytes` (`bspc-core/src/format.rs`, the validating
decoder): length and magic checks return `InvalidHeader`; after reading the
fields, `is_valid` failure returns `InvalidHeader`, a zero dimension returns
`InvalidHeader`, `checked_mul` overflow returns `InvalidHeader`, and
`nnz > nrows * ncols` returns `CorruptedData` (the last three repeat checks
already made by `is_valid`). -/
def BspcHeader.fromBytes (bytes : List Nat) : Except BspcError BspcHeader :=
  if bytes.length < headerSIZE then .error .InvalidHeader
  else if bytes.take 4 ≠ magicBSPC then .error .InvalidHeader
  else
    let h := readHeaderFields bytes
    if ¬ h.isValid then .error .InvalidHeader
    else if h.nrows = 0 || h.ncols = 0 then .error .InvalidHeader
    else if 2 ^ 64 ≤ h.nrows * h.ncols then .error .InvalidHeader
    else if h.nrows * h.ncols < h.nnz then .error .CorruptedData
    else .ok h

/-- `BspcHeader::from_bytes` (`bspc-core/src/format/header.rs`): a short
buffer returns `InsufficientBuffer`, bad magic returns `InvalidHeader`, and
the fields are returned without further validation (magic is set to `MAGIC`,
which the check made equal to the buffer's first four bytes). -/
def BspcHeader.fromBytesModular (bytes : List Nat) : Except BspcError BspcHeader :=
  if bytes.length < headerSIZE then .error .InsufficientBuffer
  else if bytes.take 4 ≠ magicBSPC then .error .InvalidHeader
  else .ok { readHeaderFields bytes with magic := magicBSPC }

/-! ## Enum tag conversions (`format.rs` `From<u8>` impls with their default
fallbacks, and the `Option`-returning `from_u8` of `format/header.rs`). -/

inductive MatrixFormat where
  | Coo
  | Csr
  | Csc
  deriving DecidableEq, Repr

inductive DataType where
  | F32
  | F64
  | I32
  | I64
  | U32
  | U64
  deriving DecidableEq, Repr

/-- `impl From<u8> for MatrixFormat` (`format.rs`): unknown tags fall back to
`Coo`. -/
def MatrixFormat.ofU8 : Nat → MatrixFormat
  | 0 => .Coo
  | 1 => .Csr
  | 2 => .Csc
  | _ => .Coo

/-- `MatrixFormat::from_u8` (`format/header.rs`): unknown tags give `None`. -/
def MatrixFormat.fromU8 : Nat → Option MatrixFormat
  | 0 => some .Coo
  | 1 => some .Csr
  | 2 => some .Csc
  | _ => none

/-- `impl From<u8> for DataType` (`format.rs`): unknown tags fall back to
`F64`. -/
def DataType.ofU8 : Nat → DataType
  | 0 => .F32
  | 1 => .F64
  | 2 => .I32
  | 3 => .I64
  | 4 => .U32
  | 5 => .U64
  | _ => .F64

/-- `DataType::from_u8` (`format/header.rs`): unknown tags give `None`. -/
def DataType.fromU8 : Nat → Option DataType
  | 0 => some .F32
  | 1 => some .F64
  | 2 => some .I32
  | 3 => some .I64
  | 4 => some .U32
  | 5 => some .U64
  | _ => none

/-- `DataType::size_bytes`. -/
def DataType.sizeBytes : DataType → Nat
  | .F32 | .I32 | .U32 => 4
  | .F64 | .I64 | .U64 => 8

/-! ## Header round-trip lemmas. -/

/-- The fifteen `u64` fields of the header, in wire order. -/
def u64Fields (h : BspcHeader) : List Nat :=
  [h.nrows, h.ncols, h.nnz, h.values_offset, h.values_size,
   h.indices_0_offset, h.indices_0_size, h.indices_1_offset, h.indices_1_size,
   h.pointers_offset, h.pointers_size, h.metadata_offset, h.metadata_size,
   h.bloom_filter_offset, h.bloom_filter_size]

theorem toBytes_flat (h : BspcHeader) :
    h.toBytes =
      (h.magic ++ [h.version, h.format_type, h.data_type, h.structure_flags])
        ++ (((u64Fields h).map u64le).flatten ++ h.reserved) := by
  simp [BspcHeader.toBytes, u64Fields, List.append_assoc]

theorem length_toBytes (h : BspcHeader) (h4 : h.magic.length = 4)
    (h32 : h.reserved.length = 32) : h.toBytes.length = 160 := by
  simp [BspcHeader.toBytes, List.length_append, u64le, length_leEnc, h4, h32]

theorem readU64_flatten (fs : List Nat) (P R : List Nat) (i k : Nat)
    (hP : P.length = k) (hi : i < fs.length) (hb : ∀ f ∈ fs, f < 2 ^ 64) :
    readU64 (P ++ ((fs.map u64le).flatten ++ R)) (k + 8 * i) = fs.getD i 0 := by
  induction fs generalizing P k i with
  | nil => simp at hi
  | cons f fs ih =>
    simp only [List.map_cons, List.flatten_cons, List.append_assoc]
    cases i with
    | zero =>
      simp only [Nat.mul_zero, Nat.add_zero, List.getD_cons_zero]
      exact readU64_concat P _ f k hP (hb f (by simp))
    | succ i =>
      have hre : P ++ (u64le f ++ ((fs.map u64le).flatten ++ R)) =
          (P ++ u64le f) ++ ((fs.map u64le).flatten ++ R) := by
        simp [List.append_assoc]
      rw [hre]
      have hlen : (P ++ u64le f).length = k + 8 := by
        simp [List.length_append, hP, u64le, length_leEnc]
      have hoff : k + 8 * (i + 1) = (k + 8) + 8 * i := by ring
      rw [hoff]
      have := ih (P ++ u64le f) i (k + 8) hlen (by simpa using hi)
        (fun x hx => hb x (by simp [hx]))
      simpa using this

theorem readHeaderFields_toBytes (h : BspcHeader) (wf : h.WF) :
    readHeaderFields h.toBytes = h := by
  obtain ⟨w1, w2, w3, w4, w5, w6, w7, w8, w9, w10, w11, w12, w13, w14, w15,
    w16, w17, w18, w19, w20, w21, w22, w23⟩ := wf
  have hball : ∀ f ∈ u64Fields h, f < 2 ^ 64 := by
    intro f hf
    simp only [u64Fields, List.mem_cons, List.not_mem_nil, or_false] at hf
    rcases hf with rfl | rfl | rfl | rfl | rfl | rfl | rfl | rfl | rfl | rfl
      | rfl | rfl | rfl | rfl | rfl <;> assumption
  have hheadlen :
      (h.magic ++ [h.version, h.format_type, h.data_type, h.structure_flags]).length = 8 := by
    simp [w1]
  have hfield : ∀ i, i < 15 →
      readU64 h.toBytes (8 + 8 * i) = (u64Fields h).getD i 0 := by
    intro i hi
    rw [toBytes_flat]
    exact readU64_flatten (u64Fields h) _ h.reserved i 8 hheadlen
      (by simp [u64Fields]; omega) hball
  have hmagic : h.toBytes.take 4 = h.magic := by
    rw [toBytes_flat]
    rw [List.take_append_of_le_length (by simp [w1])]
    rw [List.take_append_of_le_length (by omega)]
    exact List.take_of_length_le (by omega)
  have hscalar : ∀ j d, j < 4 →
      h.toBytes.getD (4 + j) d =
        [h.version, h.format_type, h.data_type, h.structure_flags].getD j d := by
    intro j d hj
    rw [toBytes_flat]
    rw [List.getD_append _ _ _ _ (by simp [w1]; omega)]
    rw [List.getD_append_right _ _ _ _ (by omega : h.magic.length ≤ 4 + j)]
    rw [w1]
    simp only [Nat.add_sub_cancel_left]
  have hres : (h.toBytes.drop 128).take 32 = h.reserved := by
    rw [toBytes_flat]
    have hlen128 :
        ((h.magic ++ [h.version, h.format_type, h.data_type, h.structure_flags])
          ++ ((u64Fields h).map u64le).flatten).length = 128 := by
      simp [w1, u64Fields, u64le, length_leEnc]
    have hre :
        (h.magic ++ [h.version, h.format_type, h.data_type, h.structure_flags])
          ++ (((u64Fields h).map u64le).flatten ++ h.reserved) =
        ((h.magic ++ [h.version, h.format_type, h.data_type, h.structure_flags])
          ++ ((u64Fields h).map u64le).flatten) ++ h.reserved := by
      simp [List.append_assoc]
    rw [hre, drop_of_length_eq hlen128, ← w22, List.take_length]
  have e0 : readU64 h.toBytes 8 = h.nrows := hfield 0 (by omega)
  have e1 : readU64 h.toBytes 16 = h.ncols := hfield 1 (by omega)
  have e2 : readU64 h.toBytes 24 = h.nnz := hfield 2 (by omega)
  have e3 : readU64 h.toBytes 32 = h.values_offset := hfield 3 (by omega)
  have e4 : readU64 h.toBytes 40 = h.values_size := hfield 4 (by omega)
  have e5 : readU64 h.toBytes 48 = h.indices_0_offset := hfield 5 (by omega)
  have e6 : readU64 h.toBytes 56 = h.indices_0_size := hfield 6 (by omega)
  have e7 : readU64 h.toBytes 64 = h.indices_1_offset := hfield 7 (by omega)
  have e8 : readU64 h.toBytes 72 = h.indices_1_size := hfield 8 (by omega)
  have e9 : readU64 h.toBytes 80 = h.pointers_offset := hfield 9 (by omega)
  have e10 : readU64 h.toBytes 88 = h.pointers_size := hfield 10 (by omega)
  have e11 : readU64 h.toBytes 96 = h.metadata_offset := hfield 11 (by omega)
  have e12 : readU64 h.toBytes 104 = h.metadata_size := hfield 12 (by omega)
  have e13 : readU64 h.toBytes 112 = h.bloom_filter_offset := hfield 13 (by omega)
  have e14 : readU64 h.toBytes 120 = h.bloom_filter_size := hfield 14 (by omega)
  have s0 : h.toBytes.getD 4 0 = h.version := hscalar 0 0 (by omega)
  have s1 : h.toBytes.getD 5 0 = h.format_type := hscalar 1 0 (by omega)
  have s2 : h.toBytes.getD 6 0 = h.data_type := hscalar 2 0 (by omega)
  have s3 : h.toBytes.getD 7 0 = h.structure_flags := hscalar 3 0 (by omega)
  cases h
  simp only [readHeaderFields, BspcHeader.mk.injEq]
  exact ⟨hmagic, s0, s1, s2, s3, e0, e1, e2, e3, e4, e5, e6, e7, e8, e9, e10,
    e11, e12, e13, e14, hres⟩

/-! ## Behavior of the two header decoders. -/

theorem readHeaderFields_magic (bytes : List Nat) :
    (readHeaderFields bytes).magic = bytes.take 4 := rfl

theorem readHeaderFields_version (bytes : List Nat) :
    (readHeaderFields bytes).version = bytes.getD 4 0 := rfl

theorem fromBytes_ok_of_valid (h : BspcHeader) (wf : h.WF)
    (hm : h.magic = magicBSPC) (hv : h.version = 1) (hr : 0 < h.nrows)
    (hc : 0 < h.ncols) (hprod : h.nrows * h.ncols < 2 ^ 64)
    (hnnz : h.nnz ≤ h.nrows * h.ncols) :
    BspcHeader.fromBytes h.toBytes = .ok h := by
  have hRH := readHeaderFields_toBytes h wf
  obtain ⟨w1, -, -, -, -, -, -, -, -, -, -, -, -, -, -, -, -, -, -, -, -, w22, -⟩ := wf
  have hlen : h.toBytes.length = 160 := length_toBytes h w1 w22
  have hvalid : h.isValid = true := by
    unfold BspcHeader.isValid
    rw [if_neg (by simp [hm]), if_neg (by simp [hv]),
      if_neg (by simp; omega), if_neg (by exact not_le.mpr hprod)]
    exact decide_eq_true hnnz
  unfold BspcHeader.fromBytes
  rw [if_neg (by simp [headerSIZE, hlen])]
  have htake : h.toBytes.take 4 = h.magic := by
    rw [← readHeaderFields_magic h.toBytes, hRH]
  rw [if_neg (by simp [htake, hm])]
  simp only [hRH]
  rw [if_neg (by simp [hvalid])]
  rw [if_neg (by simp; omega)]
  rw [if_neg (by exact not_le.mpr hprod)]
  rw [if_neg (by exact not_lt.mpr hnnz)]

theorem fromBytesModular_ok (h : BspcHeader) (wf : h.WF)
    (hm : h.magic = magicBSPC) :
    BspcHeader.fromBytesModular h.toBytes = .ok h := by
  have hRH := readHeaderFields_toBytes h wf
  obtain ⟨w1, -, -, -, -, -, -, -, -, -, -, -, -, -, -, -, -, -, -, -, -, w22, -⟩ := wf
  have hlen : h.toBytes.length = 160 := length_toBytes h w1 w22
  unfold BspcHeader.fromBytesModular
  rw [if_neg (by simp [headerSIZE, hlen])]
  have htake : h.toBytes.take 4 = h.magic := by
    rw [← readHeaderFields_magic h.toBytes, hRH]
  rw [if_neg (by simp [htake, hm])]
  have : ({ readHeaderFields h.toBytes with magic := magicBSPC } : BspcHeader) = h := by
    rw [hRH, ← hm]
  rw [this]

theorem fromBytes_short (bytes : List Nat) (hlen : bytes.length < 160) :
    BspcHeader.fromBytes bytes = .error .InvalidHeader := by
  unfold BspcHeader.fromBytes
  rw [if_pos (by simpa [headerSIZE] using hlen)]

theorem fromBytesModular_short (bytes : List Nat) (hlen : bytes.length < 160) :
    BspcHeader.fromBytesModular bytes = .error .InsufficientBuffer := by
  unfold BspcHeader.fromBytesModular
  rw [if_pos (by simpa [headerSIZE] using hlen)]

theorem fromBytes_overflow (bytes : List Nat) (hlen : ¬ bytes.length < 160)
    (hmg : ¬ bytes.take 4 ≠ magicBSPC)
    (hover : 2 ^ 64 ≤ readU64 bytes 8 * readU64 bytes 16) :
    BspcHeader.fromBytes bytes = .error .InvalidHeader := by
  have hval : (readHeaderFields bytes).isValid = false := by
    unfold BspcHeader.isValid
    split
    · rfl
    · split
      · rfl
      · split
        · rfl
        · split
          · rfl
          · rename_i hnot
            exact absurd hover hnot
  unfold BspcHeader.fromBytes
  rw [if_neg (by simpa [headerSIZE] using hlen)]
  rw [if_neg hmg]
  rw [if_pos (by simp [hval])]

/-! ## Metadata headers.
`bspc-core/src/format/metadata.rs` defines `BspcMetadataHeader` and
`LabelArrayHeader` over `BspcError`; the `bspc` crate's `src/metadata.rs`
defines its own `BspcMetadataHeader`, `LabelArray` and `MetadataView` over the
`binsparse_rs` error type (`Err` here).  Both layouts: 40-byte metadata
header (magic "META", version, 3 padding bytes, four `u64` fields) and an
8-byte label-array header `(count u32, stride u32)`. -/

/-- The magic bytes `"META"`. -/
def magicMETA : List Nat := [77, 69, 84, 65]

structure BspcMetadataHeader where
  magic : List Nat
  version : Nat
  row_labels_offset : Nat
  row_labels_size : Nat
  col_labels_offset : Nat
  col_labels_size : Nat
  deriving DecidableEq, Repr

/-- `BspcMetadataHeader::from_bytes` (`bspc-core/src/format/metadata.rs`):
short buffer gives `InsufficientBuffer`, bad magic `InvalidMetadata`,
`version > VERSION` gives `UnsupportedFormat`. -/
def BspcMetadataHeader.fromBytesCore (bytes : List Nat) :
    Except BspcError BspcMetadataHeader :=
  if bytes.length < 40 then .error .InsufficientBuffer
  else if bytes.take 4 ≠ magicMETA then .error .InvalidMetadata
  else if 1 < bytes.getD 4 0 then .error .UnsupportedFormat
  else .ok { magic := magicMETA, version := bytes.getD 4 0
             row_labels_offset := readU64 bytes 8
             row_labels_size := readU64 bytes 16
             col_labels_offset := readU64 bytes 24
             col_labels_size := readU64 bytes 32 }

/-- `BspcMetadataHeader::from_bytes` (`bspc/src/metadata.rs`): the same layout
over `binsparse_rs` errors (`InvalidState` with messages). -/
def BspcMetadataHeader.fromBytes (bytes : List Nat) :
    Except Err BspcMetadataHeader :=
  if bytes.length < 40 then .error (.InvalidState ("Metadata header too small"))
  else if bytes.take 4 ≠ magicMETA then
    .error (.InvalidState ("Invalid metadata magic bytes"))
  else if 1 < bytes.getD 4 0 then
    .error (.InvalidState ("Unsupported metadata version"))
  else .ok { magic := magicMETA, version := bytes.getD 4 0
             row_labels_offset := readU64 bytes 8
             row_labels_size := readU64 bytes 16
             col_labels_offset := readU64 bytes 24
             col_labels_size := readU64 bytes 32 }

structure LabelArrayHeader where
  count : Nat
  stride : Nat
  deriving DecidableEq, Repr

/-- `LabelArrayHeader::from_bytes` (`bspc-core/src/format/metadata.rs`):
`InsufficientBuffer` below 8 bytes, `InvalidMetadata` for stride 0 or above
`MAX_LABEL_STRIDE` = 65536. -/
def LabelArrayHeader.fromBytesCore (bytes : List Nat) :
    Except BspcError LabelArrayHeader :=
  if bytes.length < 8 then .error .InsufficientBuffer
  else
    let count := readU32 bytes 0
    let stride := readU32 bytes 4
    if stride = 0 ∨ 65536 < stride then .error .InvalidMetadata
    else .ok { count := count, stride := stride }

/-- `LabelArray::from_bytes` (`bspc/src/metadata.rs`): same checks over the
`binsparse_rs` error type. -/
def LabelArrayHeader.fromBytes (bytes : List Nat) :
    Except Err LabelArrayHeader :=
  if bytes.length < 8 then .error (.InvalidState ("Label array header too small"))
  else
    let count := readU32 bytes 0
    let stride := readU32 bytes 4
    if stride = 0 ∨ 65536 < stride then .error (.InvalidState ("Invalid label stride"))
    else .ok { count := count, stride := stride }

/-- `MetadataView` (`bspc/src/metadata.rs`): a byte window plus its decoded
header. -/
structure MetadataView where
  data : List Nat
  header : BspcMetadataHeader

/-- `MetadataView::new`: decode the header and validate that both label
regions lie inside the window. -/
def MetadataView.new (data : List Nat) : Except Err MetadataView := do
  let header ← BspcMetadataHeader.fromBytes data
  if data.length < header.row_labels_offset + header.row_labels_size then
    throw (.InvalidState ("Row labels extend beyond metadata"))
  else if data.length < header.col_labels_offset + header.col_labels_size then
    throw (.InvalidState ("Column labels extend beyond metadata"))
  else
    return { data := data, header := header }

/-- `MetadataView::row_labels_array`: slice the row-label region and decode
its 8-byte header. -/
def MetadataView.row_labels_array (v : MetadataView) :
    Except Err LabelArrayHeader :=
  if v.header.row_labels_size = 0 then
    .error (.InvalidState ("No row labels present"))
  else
    let start := v.header.row_labels_offset
    let stop := start + v.header.row_labels_size
    if v.data.length < stop then
      .error (.InvalidState ("Row labels extend beyond data"))
    else
      LabelArrayHeader.fromBytes ((v.data.drop start).take v.header.row_labels_size)

/-- `MetadataView::row_label`: O(1) lookup of label `i`; `i >= count` is the
out-of-bounds error, otherwise exactly `stride` bytes are returned. -/
def MetadataView.row_label (v : MetadataView) (row_idx : Nat) :
    Except Err (List Nat) := do
  let labels ← v.row_labels_array
  if labels.count ≤ row_idx then
    throw (.InvalidState ("Row index out of bounds"))
  else
    let start := v.header.row_labels_offset + 8 + row_idx * labels.stride
    let stop := start + labels.stride
    if v.data.length < stop then
      throw (.InvalidState ("Row label extends beyond data"))
    else
      return (v.data.drop start).take labels.stride

/-! ## Range parsing (`bspc-core/src/validation/parsing.rs`). -/

/-- `usize::MAX` on a 64-bit target. -/
def USIZE_MAX : Nat := 2 ^ 64 - 1

/-- The digit loop of `parse_usize`: reject a non-digit with `InvalidRange`;
before `result * 10 + digit` the code checks `result > (MAX - digit) / 10`
and rejects with `ArraySizeOverflow`. -/
def parseUsizeGo : Nat → List Char → Except BspcError Nat
  | cur, [] => .ok cur
  | cur, c :: rest =>
    if ¬ c.isDigit then .error .InvalidRange
    else
      let d := c.toNat - 48
      if (USIZE_MAX - d) / 10 < cur then .error .ArraySizeOverflow
      else parseUsizeGo (cur * 10 + d) rest

/-- `parse_usize` (`parsing.rs`): empty input is `InvalidRange`. -/
def parse_usize (s : List Char) : Except BspcError Nat :=
  if s = [] then .error .InvalidRange else parseUsizeGo 0 s

/-- `str::find` for a single character: index of the first occurrence. -/
def findChar (c : Char) : List Char → Option Nat
  | [] => none
  | x :: t => if x = c then some 0 else (findChar c t).map (· + 1)

/-- `parse_range` (`parsing.rs`): empty string is `InvalidRange`; a colon
split is tried first, then a dash split; each endpoint goes through
`parse_usize`, and `start > end` is `InvalidRange`. -/
def parse_range (s : List Char) : Except BspcError (Nat × Nat) :=
  if s = [] then .error .InvalidRange
  else
    match findChar ':' s with
    | some p => do
      let a ← parse_usize (s.take p)
      let b ← parse_usize (s.drop (p + 1))
      if b < a then throw .InvalidRange else return (a, b)
    | none =>
      match findChar '-' s with
      | some p => do
        let a ← parse_usize (s.take p)
        let b ← parse_usize (s.drop (p + 1))
        if b < a then throw .InvalidRange else return (a, b)
      | none => .error .InvalidRange

/-! ## Claims C3, C4, C6, C7. -/

/-- C3: Header encode/decode round trip: for every `BspcHeader` satisfying the
invariants (magic "BSPC", version 1, positive dimensions, `nnz <= nrows*ncols`
without u64 overflow), `BspcHeader::from_bytes(h.to_bytes())` succeeds and
returns a header equal to `h` in every field, the 32 reserved bytes
included. -/
theorem C3_header_roundtrip (h : BspcHeader) (wf : h.WF)
    (hm : h.magic = magicBSPC) (hv : h.version = 1) (hr : 0 < h.nrows)
    (hc : 0 < h.ncols) (hprod : h.nrows * h.ncols < 2 ^ 64)
    (hnnz : h.nnz ≤ h.nrows * h.ncols) :
    BspcHeader.fromBytes h.toBytes = .ok h :=
  fromBytes_ok_of_valid h wf hm hv hr hc hprod hnnz

/-- A concrete header with nonzero reserved bytes, exercising C3. -/
def sampleHeader : BspcHeader :=
  { BspcHeader.new with
    nrows := 3, ncols := 4, nnz := 5, data_type := 1
    values_offset := 160, values_size := 40
    reserved := 7 :: 9 :: List.replicate 30 0 }

def exceptDecEq {e a : Type} [DecidableEq e] [DecidableEq a] :
    (x y : Except e a) → Decidable (x = y)
  | .error u, .error v =>
    if h : u = v then .isTrue (by rw [h]) else
      .isFalse (by intro hc; cases hc; exact h rfl)
  | .error _, .ok _ => .isFalse (by intro hc; cases hc)
  | .ok _, .error _ => .isFalse (by intro hc; cases hc)
  | .ok u, .ok v =>
    if h : u = v then .isTrue (by rw [h]) else
      .isFalse (by intro hc; cases hc; exact h rfl)

instance {e a : Type} [DecidableEq e] [DecidableEq a] : DecidableEq (Except e a) :=
  exceptDecEq

set_option maxRecDepth 20000 in
theorem C3_header_roundtrip_witness :
    BspcHeader.fromBytes sampleHeader.toBytes = .ok sampleHeader :=
  C3_header_roundtrip sampleHeader (by decide) (by decide) (by decide)
    (by decide) (by decide) (by decide) (by decide)

/-- A 160-byte header whose `nrows * ncols` overflows u64. -/
def overflowHeader : BspcHeader :=
  { BspcHeader.new with nrows := 2 ^ 63, ncols := 4 }

set_option maxRecDepth 20000 in
/-- C4 counterexample: the claim says `BspcHeader::from_bytes` never returns a
header when `nrows * ncols` overflows u64, but the `format/header.rs` decoder
performs no dimension validation: on the 160-byte magic-carrying buffer
encoding `nrows = 2^63, ncols = 4` it returns the parsed header. -/
theorem C4_overflow_cex :
    BspcHeader.fromBytesModular overflowHeader.toBytes = .ok overflowHeader :=
  fromBytesModular_ok overflowHeader (by decide) (by decide)

/-- C4 (amended): for every 160-byte buffer with magic "BSPC" whose `nrows`
and `ncols` fields multiply with u64 overflow, the validating decoder
(`format.rs::BspcHeader::from_bytes`) returns `InvalidHeader` (a case of the
claimed "ArraySizeOverflow or InvalidHeader"), while the `format/header.rs`
decoder parses the buffer and returns a header. -/
theorem C4_overflow_rejection (bytes : List Nat) (hlen : bytes.length = 160)
    (hmg : bytes.take 4 = magicBSPC)
    (hover : 2 ^ 64 ≤ readU64 bytes 8 * readU64 bytes 16) :
    BspcHeader.fromBytes bytes = .error .InvalidHeader ∧
      ∃ h, BspcHeader.fromBytesModular bytes = .ok h := by
  constructor
  · exact fromBytes_overflow bytes (by omega) (by simp [hmg]) hover
  · refine ⟨{ readHeaderFields bytes with magic := magicBSPC }, ?_⟩
    unfold BspcHeader.fromBytesModular
    rw [if_neg (by simp [headerSIZE]; omega), if_neg (by simp [hmg])]

set_option maxRecDepth 20000 in
theorem C4_overflow_rejection_witness :
    BspcHeader.fromBytes overflowHeader.toBytes = .error .InvalidHeader :=
  (C4_overflow_rejection overflowHeader.toBytes (by decide) (by decide)
    (by decide)).1

/-- A header carrying an unknown version byte. -/
def versionTwoHeader : BspcHeader :=
  { BspcHeader.new with version := 2, nrows := 1, ncols := 1 }

set_option maxRecDepth 20000 in
/-- C6 counterexample: the claim says an unknown version yields
`UnsupportedFormat` and an unknown `data_type` is never silently read as a
default element type.  In the code, decoding a version-2 header yields
`InvalidHeader`, and the `From<u8>` conversions silently map unknown tags to
`F64` / `Coo`. -/
theorem C6_unsupported_tag_cex :
    BspcHeader.fromBytes versionTwoHeader.toBytes = .error .InvalidHeader ∧
      DataType.ofU8 99 = .F64 ∧ MatrixFormat.ofU8 99 = .Coo := by
  refine ⟨by decide, rfl, rfl⟩

/-- C6 (amended): an unknown version makes `format.rs::from_bytes` return
`InvalidHeader` (not `UnsupportedFormat`); a `data_type` byte above 5 falls
back to `F64` under `From<u8>` (and gives `None` under `from_u8`); a
`format_type` byte above 2 falls back to `Coo` (resp. `None`); only the
metadata-header decode returns `UnsupportedFormat`, for a version above 1. -/
theorem C6_unsupported_tags (bytes : List Nat) (b : Nat) :
    (bytes.length = 160 → bytes.take 4 = magicBSPC → bytes.getD 4 0 ≠ 1 →
      BspcHeader.fromBytes bytes = .error .InvalidHeader) ∧
    (5 < b → DataType.ofU8 b = .F64 ∧ DataType.fromU8 b = none) ∧
    (2 < b → MatrixFormat.ofU8 b = .Coo ∧ MatrixFormat.fromU8 b = none) ∧
    (¬ bytes.length < 40 → bytes.take 4 = magicMETA → 1 < bytes.getD 4 0 →
      BspcMetadataHeader.fromBytesCore bytes = .error .UnsupportedFormat) := by
  refine ⟨?_, ?_, ?_, ?_⟩
  · intro hlen hmg hv
    have hval : (readHeaderFields bytes).isValid = false := by
      unfold BspcHeader.isValid
      rw [if_neg (by simp [readHeaderFields_magic, hmg])]
      rw [if_pos (by rw [readHeaderFields_version]; exact hv)]
    unfold BspcHeader.fromBytes
    rw [if_neg (by simp [headerSIZE]; omega), if_neg (by simp [hmg])]
    simp only [hval]
    rw [if_pos (by simp)]
  · intro hb
    obtain ⟨k, rfl⟩ : ∃ k, b = k + 6 := ⟨b - 6, by omega⟩
    exact ⟨rfl, rfl⟩
  · intro hb
    obtain ⟨k, rfl⟩ : ∃ k, b = k + 3 := ⟨b - 3, by omega⟩
    exact ⟨rfl, rfl⟩
  · intro hlen hmg hv
    unfold BspcMetadataHeader.fromBytesCore
    rw [if_neg hlen, if_neg (by simp [hmg]), if_pos hv]

set_option maxRecDepth 20000 in
theorem C6_unsupported_tags_witness :
    DataType.ofU8 6 = .F64 ∧ MatrixFormat.ofU8 3 = .Coo ∧
      BspcHeader.fromBytes versionTwoHeader.toBytes = .error .InvalidHeader := by
  refine ⟨(((C6_unsupported_tags [] 6).2.1) (by omega)).1,
    (((C6_unsupported_tags [] 3).2.2.1) (by omega)).1,
    ((C6_unsupported_tags versionTwoHeader.toBytes 0).1) (by decide) (by decide)
      (by decide)⟩

/-- C7 counterexample: on a 10-byte buffer (shorter than the 160-byte header),
`format.rs::BspcHeader::from_bytes` returns `InvalidHeader`, not the
`InsufficientBuffer` kind the claim requires. -/
theorem C7_short_buffer_cex :
    BspcHeader.fromBytes (List.replicate 10 0) = .error .InvalidHeader ∧
      BspcError.InvalidHeader ≠ BspcError.InsufficientBuffer := by
  exact ⟨fromBytes_short _ (by simp), by decide⟩

/-- C7 (amended): for buffers shorter than the fixed decode size, the
`bspc-core/src/format/header.rs` and `format/metadata.rs` decoders return
`InsufficientBuffer` (header 160, metadata header 40, label-array header 8);
the legacy `format.rs::BspcHeader::from_bytes` instead returns
`InvalidHeader`, and the `bspc` crate's metadata decoders return
`InvalidState` errors of the `binsparse_rs` type. -/
theorem C7_short_buffer (bytes : List Nat) :
    (bytes.length < 160 →
      BspcHeader.fromBytesModular bytes = .error .InsufficientBuffer ∧
      BspcHeader.fromBytes bytes = .error .InvalidHeader) ∧
    (bytes.length < 40 →
      BspcMetadataHeader.fromBytesCore bytes = .error .InsufficientBuffer ∧
      BspcMetadataHeader.fromBytes bytes =
        .error (.InvalidState ("Metadata header too small"))) ∧
    (bytes.length < 8 →
      LabelArrayHeader.fromBytesCore bytes = .error .InsufficientBuffer ∧
      LabelArrayHeader.fromBytes bytes =
        .error (.InvalidState ("Label array header too small"))) := by
  refine ⟨fun hl => ⟨fromBytesModular_short bytes hl, fromBytes_short bytes hl⟩,
    fun hl => ⟨?_, ?_⟩, fun hl => ⟨?_, ?_⟩⟩
  · unfold BspcMetadataHeader.fromBytesCore
    rw [if_pos hl]
  · unfold BspcMetadataHeader.fromBytes
    rw [if_pos hl]
  · unfold LabelArrayHeader.fromBytesCore
    rw [if_pos hl]
  · unfold LabelArrayHeader.fromBytes
    rw [if_pos hl]

theorem C7_short_buffer_witness :
    BspcHeader.fromBytesModular [] = .error .InsufficientBuffer ∧
      BspcMetadataHeader.fromBytesCore [] = .error .InsufficientBuffer ∧
      LabelArrayHeader.fromBytesCore [] = .error .InsufficientBuffer :=
  ⟨((C7_short_buffer []).1 (by decide)).1,
   ((C7_short_buffer []).2.1 (by decide)).1,
   ((C7_short_buffer []).2.2 (by decide)).1⟩

/-! ## Characterization of `parse_usize` and `parse_range`. -/

/-- The numeric value accumulated by the `parse_usize` digit loop. -/
def digitsValFrom (cur : Nat) (l : List Char) : Nat :=
  l.foldl (fun a c => a * 10 + (c.toNat - 48)) cur

/-- Value of an all-digit string. -/
def digitsVal (l : List Char) : Nat := digitsValFrom 0 l

theorem digit_bounds (c : Char) (h : c.isDigit = true) :
    48 ≤ c.toNat ∧ c.toNat ≤ 57 := by
  simp [Char.isDigit, Char.le_def] at h
  exact h

theorem digitsValFrom_ge (l : List Char) (a : Nat) : a ≤ digitsValFrom a l := by
  induction l generalizing a with
  | nil => simp [digitsValFrom]
  | cons c t ih =>
    simp only [digitsValFrom, List.foldl_cons]
    calc a ≤ a * 10 + (c.toNat - 48) := by omega
    _ ≤ _ := ih _

theorem parseUsizeGo_ok_iff (l : List Char) (cur n : Nat)
    (hcur : cur ≤ USIZE_MAX) :
    parseUsizeGo cur l = .ok n ↔
      ((∀ c ∈ l, c.isDigit = true) ∧ n = digitsValFrom cur l ∧
        digitsValFrom cur l ≤ USIZE_MAX) := by
  induction l generalizing cur with
  | nil =>
    simp only [parseUsizeGo, digitsValFrom, List.foldl_nil, List.not_mem_nil]
    constructor
    · intro h
      cases h
      exact ⟨by simp, rfl, hcur⟩
    · intro ⟨_, hn, _⟩
      rw [hn]
  | cons c t ih =>
    simp only [parseUsizeGo]
    by_cases hc : c.isDigit
    · rw [if_neg (by simp [hc])]
      by_cases hover : (USIZE_MAX - (c.toNat - 48)) / 10 < cur
      · rw [if_pos hover]
        have hd := digit_bounds c hc
        have hbig : USIZE_MAX < cur * 10 + (c.toNat - 48) := by
          simp only [USIZE_MAX] at hover ⊢
          omega
        have hge : cur * 10 + (c.toNat - 48) ≤ digitsValFrom cur (c :: t) := by
          simp only [digitsValFrom, List.foldl_cons]
          exact digitsValFrom_ge t _
        constructor
        · intro h
          cases h
        · intro ⟨_, _, hle⟩
          omega
      · rw [if_neg hover]
        have hd := digit_bounds c hc
        have hcur' : cur * 10 + (c.toNat - 48) ≤ USIZE_MAX := by
          simp only [USIZE_MAX] at hover hcur ⊢
          omega
        rw [ih _ hcur']
        simp only [digitsValFrom, List.foldl_cons, List.mem_cons]
        constructor
        · intro ⟨hdig, hn, hle⟩
          exact ⟨fun x hx => hx.elim (fun he => he ▸ hc) (hdig x), hn, hle⟩
        · intro ⟨hdig, hn, hle⟩
          exact ⟨fun x hx => hdig x (Or.inr hx), hn, hle⟩
    · rw [if_pos (by simp [hc])]
      constructor
      · intro h
        cases h
      · intro ⟨hdig, _, _⟩
        exact absurd (hdig c (by simp)) hc

theorem parse_usize_ok_iff (s : List Char) (n : Nat) :
    parse_usize s = .ok n ↔
      (s ≠ [] ∧ (∀ c ∈ s, c.isDigit = true) ∧ n = digitsVal s ∧
        digitsVal s ≤ USIZE_MAX) := by
  unfold parse_usize
  by_cases hs : s = []
  · rw [if_pos hs]
    simp [hs]
  · rw [if_neg hs]
    rw [parseUsizeGo_ok_iff s 0 n (by simp [USIZE_MAX])]
    simp [digitsVal, hs]

theorem parseUsizeGo_error_kinds (l : List Char) (cur : Nat) (e : BspcError)
    (h : parseUsizeGo cur l = .error e) :
    e = .InvalidRange ∨ e = .ArraySizeOverflow := by
  induction l generalizing cur with
  | nil => cases h
  | cons c t ih =>
    simp only [parseUsizeGo] at h
    by_cases hc : ¬ c.isDigit
    · rw [if_pos hc] at h
      cases h
      exact Or.inl rfl
    · rw [if_neg hc] at h
      by_cases hover : (USIZE_MAX - (c.toNat - 48)) / 10 < cur
      · rw [if_pos hover] at h
        cases h
        exact Or.inr rfl
      · rw [if_neg hover] at h
        exact ih _ h

theorem parse_usize_error_kinds (s : List Char) (e : BspcError)
    (h : parse_usize s = .error e) :
    e = .InvalidRange ∨ e = .ArraySizeOverflow := by
  unfold parse_usize at h
  by_cases hs : s = []
  · rw [if_pos hs] at h
    cases h
    exact Or.inl rfl
  · rw [if_neg hs] at h
    exact parseUsizeGo_error_kinds s 0 e h

/-! ### `findChar` lemmas. -/

theorem findChar_eq_none_iff (c : Char) (l : List Char) :
    findChar c l = none ↔ c ∉ l := by
  induction l with
  | nil => simp [findChar]
  | cons x t ih =>
    simp only [findChar, List.mem_cons]
    by_cases hx : x = c
    · simp [hx]
    · rw [if_neg hx]
      cases hfc : findChar c t with
      | none =>
        have hnt : c ∉ t := ih.mp hfc
        simp [hnt, show c ≠ x from fun he => hx he.symm]
      | some p =>
        have hmt : c ∈ t := by
          by_contra hn
          rw [ih.mpr hn] at hfc
          cases hfc
        simp [hmt]

theorem findChar_split (c : Char) (l : List Char) (p : Nat)
    (h : findChar c l = some p) :
    ∃ A B, l = A ++ c :: B ∧ A.length = p ∧ c ∉ A := by
  induction l generalizing p with
  | nil => cases h
  | cons x t ih =>
    simp only [findChar] at h
    by_cases hx : x = c
    · rw [if_pos hx] at h
      cases h
      exact ⟨[], t, by simp [hx], rfl, by simp⟩
    · rw [if_neg hx] at h
      cases hfc : findChar c t with
      | none => rw [hfc] at h; cases h
      | some q =>
        rw [hfc] at h
        cases h
        obtain ⟨A, B, hl, hlen, hni⟩ := ih q hfc
        exact ⟨x :: A, B, by simp [hl], by simp [hlen],
          by simp [hni]; exact fun he => hx he.symm⟩

theorem findChar_append (c : Char) (A B : List Char) (hA : c ∉ A) :
    findChar c (A ++ c :: B) = some A.length := by
  induction A with
  | nil => simp [findChar]
  | cons x t ih =>
    have hx : x ≠ c := fun he => hA (by simp [he])
    have ht : c ∉ t := fun hm => hA (by simp [hm])
    rw [List.cons_append]
    simp only [findChar, if_neg hx]
    rw [ih ht]
    simp

theorem bindE_ok {e a b : Type} (x : a) (f : a → Except e b) :
    (Except.ok x >>= f) = f x := rfl

theorem bindE_err {e a b : Type} (u : e) (f : a → Except e b) :
    ((Except.error u : Except e a) >>= f) = .error u := rfl

theorem throwE {e a : Type} (u : e) : (throw u : Except e a) = .error u := rfl

theorem pureE {e a : Type} (x : a) : (pure x : Except e a) = .ok x := rfl

theorem append_cons_split_unique {α : Type} (c : α) (A B A' B' : List α)
    (h : A ++ c :: B = A' ++ c :: B') (hA : c ∉ A) (hA' : c ∉ A') :
    A = A' ∧ B = B' := by
  induction A generalizing A' with
  | nil =>
    cases A' with
    | nil => simpa using h
    | cons y t =>
      simp only [List.nil_append, List.cons_append, List.cons.injEq] at h
      exact absurd (by simp [h.1]) hA'
  | cons x tA ih =>
    cases A' with
    | nil =>
      simp only [List.cons_append, List.nil_append, List.cons.injEq] at h
      exact absurd (by simp [h.1]) hA
    | cons y t =>
      simp only [List.cons_append, List.cons.injEq] at h
      obtain ⟨h1, h2⟩ := ih t h.2 (fun hm => hA (by simp [hm]))
        (fun hm => hA' (by simp [hm]))
      exact ⟨by rw [h.1, h1], h2⟩

/-- A string of the accepted shape for separator `sep`: nonempty all-digit
endpoints whose values fit in `usize` with `start <= end`. -/
def ValidRangeSplit (sep : Char) (s : List Char) (a b : Nat) : Prop :=
  ∃ A B, s = A ++ sep :: B ∧ A ≠ [] ∧ B ≠ [] ∧
    (∀ c ∈ A, c.isDigit = true) ∧ (∀ c ∈ B, c.isDigit = true) ∧
    digitsVal A = a ∧ digitsVal B = b ∧
    digitsVal A ≤ USIZE_MAX ∧ digitsVal B ≤ USIZE_MAX ∧ a ≤ b

theorem not_mem_of_digits (sep : Char) (A : List Char)
    (hd : ∀ c ∈ A, c.isDigit = true) (hs : sep.isDigit = false) : sep ∉ A :=
  fun hm => by rw [hd sep hm] at hs; cases hs

theorem mem_of_validRangeSplit {sep : Char} {s : List Char} {a b : Nat}
    (h : ValidRangeSplit sep s a b) : sep ∈ s := by
  obtain ⟨A, B, hs, -⟩ := h
  simp [hs]

theorem rangeBody_ok_iff (x y : List Char) (a b : Nat) :
    ((do
      let u ← parse_usize x
      let v ← parse_usize y
      if v < u then throw BspcError.InvalidRange else return (u, v)) =
        Except.ok (a, b)) ↔
      (parse_usize x = .ok a ∧ parse_usize y = .ok b ∧ a ≤ b) := by
  cases hx : parse_usize x with
  | error u => simp [hx, bindE_err]
  | ok u =>
    rw [bindE_ok]
    cases hy : parse_usize y with
    | error v => simp [hy, bindE_err]
    | ok v =>
      rw [bindE_ok]
      by_cases hlt : v < u
      · rw [if_pos hlt, throwE]
        constructor
        · intro h; cases h
        · intro ⟨ha, hb, hab⟩
          cases ha; cases hb
          omega
      · rw [if_neg hlt, pureE]
        constructor
        · intro h
          cases h
          exact ⟨rfl, rfl, by omega⟩
        · intro ⟨ha, hb, hab⟩
          cases ha; cases hb
          rfl

theorem rangeBody_error_kinds (x y : List Char) (e : BspcError)
    (h : (do
      let u ← parse_usize x
      let v ← parse_usize y
      if v < u then throw BspcError.InvalidRange else return (u, v)) =
        Except.error e) :
    e = .InvalidRange ∨ e = .ArraySizeOverflow := by
  cases hx : parse_usize x with
  | error u =>
    rw [hx, bindE_err] at h
    cases h
    exact parse_usize_error_kinds x _ hx
  | ok u =>
    rw [hx, bindE_ok] at h
    cases hy : parse_usize y with
    | error v =>
      rw [hy, bindE_err] at h
      cases h
      exact parse_usize_error_kinds y _ hy
    | ok v =>
      rw [hy, bindE_ok] at h
      by_cases hlt : v < u
      · rw [if_pos hlt, throwE] at h
        cases h
        exact Or.inl rfl
      · rw [if_neg hlt, pureE] at h
        cases h

theorem branch_ok_iff (sep : Char) (hsep : sep.isDigit = false)
    (s : List Char) (p a b : Nat) (hfc : findChar sep s = some p) :
    ((do
      let u ← parse_usize (s.take p)
      let v ← parse_usize (s.drop (p + 1))
      if v < u then throw BspcError.InvalidRange else return (u, v)) =
        Except.ok (a, b)) ↔ ValidRangeSplit sep s a b := by
  obtain ⟨A, B, hsl, hlen, hni⟩ := findChar_split sep s p hfc
  have htake : s.take p = A := by
    rw [hsl]; exact take_of_length_eq hlen
  have hdrop : s.drop (p + 1) = B := by
    rw [hsl, show A ++ sep :: B = (A ++ [sep]) ++ B by simp]
    exact drop_of_length_eq (by simp [hlen])
  rw [rangeBody_ok_iff, htake, hdrop, parse_usize_ok_iff, parse_usize_ok_iff]
  constructor
  · intro ⟨⟨hAne, hAdig, ha, haM⟩, ⟨hBne, hBdig, hb, hbM⟩, hab⟩
    exact ⟨A, B, hsl, hAne, hBne, hAdig, hBdig, ha.symm, hb.symm, haM, hbM, hab⟩
  · intro ⟨A', B', hsl', hAne, hBne, hAdig, hBdig, ha, hb, haM, hbM, hab⟩
    have hni' : sep ∉ A' := not_mem_of_digits sep A' hAdig hsep
    obtain ⟨hAA, hBB⟩ :=
      append_cons_split_unique sep A B A' B' (hsl.symm.trans hsl') hni hni'
    subst hAA
    subst hBB
    exact ⟨⟨hAne, hAdig, ha.symm, haM⟩, ⟨hBne, hBdig, hb.symm, hbM⟩,
      by omega⟩

/-- C8 (amended): `parse_range` returns `Ok(start..end)` exactly when the
string splits as `start:end` (or, with no colon present, `start-end`) with
both endpoints non-empty decimal digit strings whose values fit in `usize`
and `start <= end`; every other string yields an error, which is
`InvalidRange` except that an endpoint whose digits overflow `usize` yields
`ArraySizeOverflow`. -/
theorem C8_parse_range (s : List Char) (a b : Nat) (e : BspcError) :
    (parse_range s = .ok (a, b) ↔
      (ValidRangeSplit ':' s a b ∨ ((':') ∉ s ∧ ValidRangeSplit '-' s a b))) ∧
    (parse_range s = .error e → e = .InvalidRange ∨ e = .ArraySizeOverflow) := by
  constructor
  · by_cases hs : s = []
    · unfold parse_range
      rw [if_pos hs]
      constructor
      · intro h
        cases h
      · intro h
        exfalso
        have hmem : ∃ sep, (sep : Char) ∈ s := by
          rcases h with h | ⟨-, h⟩
          · exact ⟨':', mem_of_validRangeSplit h⟩
          · exact ⟨'-', mem_of_validRangeSplit h⟩
        obtain ⟨sep, hm⟩ := hmem
        rw [hs] at hm
        cases hm
    · unfold parse_range
      rw [if_neg hs]
      cases hfc : findChar ':' s with
      | some p =>
        simp only []
        have hcolon : (':' : Char) ∈ s := by
          obtain ⟨A, B, hsl, -, -⟩ := findChar_split ':' s p hfc
          simp [hsl]
        rw [branch_ok_iff ':' (by decide) s p a b hfc]
        constructor
        · exact Or.inl
        · intro h
          rcases h with h | ⟨hn, -⟩
          · exact h
          · exact absurd hcolon hn
      | none =>
        have hcn : (':' : Char) ∉ s := (findChar_eq_none_iff _ _).mp hfc
        simp only []
        cases hfd : findChar '-' s with
        | some p =>
          simp only []
          rw [branch_ok_iff '-' (by decide) s p a b hfd]
          constructor
          · intro h
            exact Or.inr ⟨hcn, h⟩
          · intro h
            rcases h with h | ⟨-, h⟩
            · exact absurd (mem_of_validRangeSplit h) hcn
            · exact h
        | none =>
          have hdn : ('-' : Char) ∉ s := (findChar_eq_none_iff _ _).mp hfd
          simp only []
          constructor
          · intro h
            cases h
          · intro h
            rcases h with h | ⟨-, h⟩
            · exact absurd (mem_of_validRangeSplit h) hcn
            · exact absurd (mem_of_validRangeSplit h) hdn
  · by_cases hs : s = []
    · unfold parse_range
      rw [if_pos hs]
      intro h
      cases h
      exact Or.inl rfl
    · unfold parse_range
      rw [if_neg hs]
      cases hfc : findChar ':' s with
      | some p =>
        simp only []
        exact rangeBody_error_kinds _ _ e
      | none =>
        simp only []
        cases hfd : findChar '-' s with
        | some p =>
          simp only []
          exact rangeBody_error_kinds _ _ e
        | none =>
          simp only []
          intro h
          cases h
          exact Or.inl rfl

/-- C8 counterexample: the claim requires `InvalidRange` for every string
outside the accepted shape, but an endpoint whose decimal digits overflow
`usize` makes `parse_usize` return `ArraySizeOverflow`:
`parse_range("18446744073709551616:1")` (2^64, above `usize::MAX`) is
`ArraySizeOverflow`, not `InvalidRange`. -/
theorem C8_parse_range_cex :
    parse_range ("18446744073709551616:1".toList) =
        .error .ArraySizeOverflow ∧
      BspcError.ArraySizeOverflow ≠ BspcError.InvalidRange := by
  exact ⟨by decide, by decide⟩

theorem C8_parse_range_witness :
    parse_range ("0:10".toList) = .ok (0, 10) ∧
      parse_range ("10:5".toList) = .error .InvalidRange ∧
      parse_range ("10".toList) = .error .InvalidRange ∧
      parse_range ("".toList) = .error .InvalidRange ∧
      parse_range (":10".toList) = .error .InvalidRange := by
  refine ⟨(C8_parse_range ("0:10".toList) 0 10 .InvalidRange).1.mpr
    (Or.inl ⟨"0".toList, "10".toList, by decide, by decide, by decide,
      by decide, by decide, by decide, by decide, by decide, by decide,
      by decide⟩), by decide, by decide, by decide, by decide⟩

/-! ## Bloom filters (`bspc-core/src/bloom_filter.rs`) and the chunked index
(`bspc/src/chunk_bloom_filter.rs`). -/

/-- `usize::div_ceil` (for a positive divisor). -/
def divCeil (a b : Nat) : Nat := (a + b - 1) / b

/-- `BloomFilter<N>`: `nbytes` models the const parameter `N`, `bits` the
`[u8; N]` array, `hash_count` the `u8` count. -/
structure BloomFilter where
  nbytes : Nat
  bits : List Nat
  hash_count : Nat
  deriving DecidableEq, Repr

/-- One step of the FNV-1a loop: `hash ^= byte; hash = hash.wrapping_mul(16777619)`. -/
def fnvStep (h byte : Nat) : Nat := ((h ^^^ byte) * 16777619) % 2 ^ 64

/-- `BloomFilter::hash_function`: seeded FNV-1a over the 8 little-endian bytes
of the `usize` value, then the seed is XORed in and multiplied once more. -/
def hashFunction (value seed : Nat) : Nat :=
  let h := (leEnc 8 value).foldl fnvStep 2166136261
  ((h ^^^ seed) * 16777619) % 2 ^ 64

/-- `BloomFilter::<N>::new(expected_elements)`: optimal hash count
`ceil((N*8*693/expected)/1000)` cast `as u8` and clamped to `[1, 8]`;
3 when `expected = 0`. -/
def BloomFilter.new (n expected : Nat) : BloomFilter :=
  let optimal_k := if 0 < expected then divCeil (n * 8 * 693 / expected) 1000 % 256 else 3
  { nbytes := n, bits := List.replicate n 0, hash_count := max 1 (min optimal_k 8) }

/-- `BloomFilter::with_hash_count`. -/
def BloomFilter.withHashCount (n k : Nat) : BloomFilter :=
  { nbytes := n, bits := List.replicate n 0, hash_count := k }

/-- `BloomFilter::from_bits`. -/
def BloomFilter.from_bits (n : Nat) (bits : List Nat) (k : Nat) : BloomFilter :=
  { nbytes := n, bits := bits, hash_count := k }

/-- `BloomFilter::insert`: for each seed `i < hash_count`, set bit
`hash % (N*8)` of the bit array (`bits[idx/8] |= 1 << (idx%8)`). -/
def BloomFilter.insert (f : BloomFilter) (value : Nat) : BloomFilter :=
  let setStep : List Nat → Nat → List Nat := fun bs i =>
    let bitIndex := hashFunction value i % (f.nbytes * 8)
    bs.set (bitIndex / 8) (bs.getD (bitIndex / 8) 0 ||| (1 <<< (bitIndex % 8)))
  { f with bits := (List.range f.hash_count).foldl setStep f.bits }

/-- `BloomFilter::contains`: true iff every probed bit is set. -/
def BloomFilter.contains (f : BloomFilter) (value : Nat) : Bool :=
  (List.range f.hash_count).all (fun i =>
    let bitIndex := hashFunction value i % (f.nbytes * 8)
    (f.bits.getD (bitIndex / 8) 0 &&& (1 <<< (bitIndex % 8))) != 0)

/-- A fold of `insert` over a list of keys (later inserts of the claim). -/
def BloomFilter.insertMany (f : BloomFilter) (xs : List Nat) : BloomFilter :=
  xs.foldl (fun g x => g.insert x) f

/-- `ChunkBloomFilter` (`bspc/src/chunk_bloom_filter.rs`): one
`BloomFilter64` (8 bytes) per chunk of `chunk_size` rows. -/
structure ChunkBloomFilter where
  chunk_filters : List BloomFilter
  chunk_size : Nat
  total_rows : Nat
  deriving DecidableEq, Repr

/-- Default used only as the `getD` fallback; never reached when the chunk
index is in bounds. -/
def defaultBF : BloomFilter := { nbytes := 0, bits := [], hash_count := 0 }

/-- `ChunkBloomFilter::new`: `ceil(total_rows/chunk_size)` leaves, each
`BloomFilter64::new(chunk_size)`. -/
def ChunkBloomFilter.new (total_rows chunk_size : Nat) : ChunkBloomFilter :=
  { chunk_filters :=
      List.replicate (divCeil total_rows chunk_size) (BloomFilter.new 8 chunk_size)
    chunk_size := chunk_size
    total_rows := total_rows }

/-- `ChunkBloomFilter::insert`: the row is mapped to chunk
`row / chunk_size`, and `row % chunk_size` is inserted into that leaf (a
missing chunk is a silent no-op via `get_mut`). -/
def ChunkBloomFilter.insert (cf : ChunkBloomFilter) (row : Nat) : ChunkBloomFilter :=
  let chunk_idx := row / cf.chunk_size
  if chunk_idx < cf.chunk_filters.length then
    let updated :=
      (cf.chunk_filters.getD chunk_idx defaultBF).insert (row % cf.chunk_size)
    { cf with chunk_filters := cf.chunk_filters.set chunk_idx updated }
  else cf

/-- `slice::partition_point` on a partitioned slice: the length of the
satisfying prefix.  `bulk_insert_sorted` requires a non-decreasing input, on
which the binary search agrees with this value. -/
def partitionPoint (p : Nat → Bool) (l : List Nat) : Nat := (l.takeWhile p).length

/-- `ChunkBloomFilter::bulk_insert_sorted`: every leaf `idx` inserts the rows
of `sorted_rows[start_pos..end_pos]` (found by `partition_point` against the
chunk bounds), keyed by `row % chunk_size`. -/
def ChunkBloomFilter.bulkInsertSorted (cf : ChunkBloomFilter) (sorted_rows : List Nat) :
    ChunkBloomFilter :=
  if sorted_rows = [] then cf
  else
    let perChunk : Nat → BloomFilter → BloomFilter := fun chunk_idx f =>
      let chunk_start := chunk_idx * cf.chunk_size
      let chunk_end := (chunk_idx + 1) * cf.chunk_size
      let start_pos := partitionPoint (fun r => decide (r < chunk_start)) sorted_rows
      let end_pos := partitionPoint (fun r => decide (r < chunk_end)) sorted_rows
      ((sorted_rows.take end_pos).drop start_pos).foldl
        (fun g r => g.insert (r % cf.chunk_size)) f
    { cf with chunk_filters := cf.chunk_filters.mapIdx perChunk }

/-- `ChunkBloomFilter::may_contain_row`: map to the chunk and probe once;
false when the chunk does not exist. -/
def ChunkBloomFilter.may_contain_row (cf : ChunkBloomFilter) (row : Nat) : Bool :=
  let chunk_idx := row / cf.chunk_size
  if chunk_idx < cf.chunk_filters.length then
    (cf.chunk_filters.getD chunk_idx defaultBF).contains (row % cf.chunk_size)
  else false

/-- `ChunkBloomFilter::serialize`: `chunk_size u32 | total_rows u32 | k u32`
then, per leaf, `hash_count u8` followed by the 8 bit bytes. -/
def ChunkBloomFilter.serialize (cf : ChunkBloomFilter) : List Nat :=
  u32le cf.chunk_size ++ u32le cf.total_rows ++ u32le cf.chunk_filters.length
    ++ (cf.chunk_filters.map (fun f => f.hash_count % 256 :: f.bits)).flatten

/-- The per-chunk loop of `ChunkBloomFilter::deserialize`. -/
def deserializeChunks (data : List Nat) (offset : Nat) :
    Nat → Except String (List BloomFilter)
  | 0 => .ok []
  | n + 1 =>
    if data.length < offset + 9 then .error ("Invalid chunk bloom filter data")
    else do
      let rest ← deserializeChunks data (offset + 9) n
      .ok (BloomFilter.from_bits 8 ((data.drop (offset + 1)).take 8)
        (data.getD offset 0) :: rest)

/-- `ChunkBloomFilter::deserialize`: a buffer below 12 bytes (or one missing
a 9-byte chunk record) is rejected. -/
def ChunkBloomFilter.deserialize (data : List Nat) :
    Except String ChunkBloomFilter :=
  if data.length < 12 then .error ("Invalid chunk bloom filter data")
  else do
    let chunk_filters ← deserializeChunks data 12 (readU32 data 8)
    .ok { chunk_filters := chunk_filters, chunk_size := readU32 data 0
          total_rows := readU32 data 4 }

/-! ## Bloom-filter lemmas: bits only grow under `insert`, and every bit
probed by `contains` was set by the matching `insert`. -/

theorem and_shift_ne_zero_iff (x m : Nat) :
    ((x &&& (1 <<< m)) ≠ 0) ↔ x.testBit m = true := by
  rw [Nat.shiftLeft_eq, one_mul, Nat.and_two_pow]
  cases h : x.testBit m <;> simp [h, Nat.two_pow_pos, Nat.pos_iff_ne_zero]

theorem getD_set_self {α : Type} (xs : List α) (j : Nat) (v d : α)
    (hj : j < xs.length) : (xs.set j v).getD j d = v := by
  rw [List.getD_eq_getElem?_getD, List.getElem?_set_eq_of_lt v hj]
  rfl

theorem getD_set_ne {α : Type} (xs : List α) (i j : Nat) (v d : α)
    (h : i ≠ j) : (xs.set j v).getD i d = xs.getD i d := by
  rw [List.getD_eq_getElem?_getD, List.getD_eq_getElem?_getD,
    List.getElem?_set_ne (fun he => h he.symm)]

/-- `ys` has at least the set bits of `xs` (byte array compared bitwise). -/
def bitsGe (ys xs : List Nat) : Prop :=
  ∀ j k, (xs.getD j 0).testBit k = true → (ys.getD j 0).testBit k = true

theorem bitsGe_refl (xs : List Nat) : bitsGe xs xs := fun _ _ h => h

theorem bitsGe_trans {zs ys xs : List Nat} (h1 : bitsGe zs ys)
    (h2 : bitsGe ys xs) : bitsGe zs xs := fun j k h => h1 j k (h2 j k h)

theorem bitsGe_set_lor (xs : List Nat) (j m : Nat) :
    bitsGe (xs.set j (xs.getD j 0 ||| m)) xs := by
  intro i k hb
  by_cases hij : i = j
  · subst hij
    by_cases hj : i < xs.length
    · rw [getD_set_self _ _ _ _ hj, Nat.testBit_lor, hb]
      simp
    · rw [List.set_eq_of_length_le (by omega)]
      exact hb
  · rw [getD_set_ne _ _ _ _ _ hij]
    exact hb

theorem bitsGe_foldl {β : Type} {F : List Nat → β → List Nat}
    (hF : ∀ bs i, bitsGe (F bs i) bs) (l : List β) (bs : List Nat) :
    bitsGe (l.foldl F bs) bs := by
  induction l generalizing bs with
  | nil => exact bitsGe_refl bs
  | cons x t ih => exact bitsGe_trans (ih (F bs x)) (hF bs x)

theorem length_foldl {β : Type} {F : List Nat → β → List Nat}
    (hF : ∀ bs i, (F bs i).length = bs.length) (l : List β) (bs : List Nat) :
    (l.foldl F bs).length = bs.length := by
  induction l generalizing bs with
  | nil => rfl
  | cons x t ih => rw [List.foldl_cons, ih (F bs x), hF bs x]

/-- The bit-setting step of `BloomFilter::insert`, named for the proofs. -/
def setBitStep (value nbytes : Nat) (bs : List Nat) (i : Nat) : List Nat :=
  let bitIndex := hashFunction value i % (nbytes * 8)
  bs.set (bitIndex / 8) (bs.getD (bitIndex / 8) 0 ||| (1 <<< (bitIndex % 8)))

theorem setBitStep_bitsGe (v nb : Nat) (bs : List Nat) (i : Nat) :
    bitsGe (setBitStep v nb bs i) bs := bitsGe_set_lor bs _ _

theorem setBitStep_length (v nb : Nat) (bs : List Nat) (i : Nat) :
    (setBitStep v nb bs i).length = bs.length := by
  simp [setBitStep]

theorem setBitStep_sets (v nb : Nat) (bs : List Nat) (i : Nat)
    (hn : 0 < nb) (hlen : bs.length = nb) :
    (((setBitStep v nb bs i)).getD (hashFunction v i % (nb * 8) / 8) 0).testBit
      (hashFunction v i % (nb * 8) % 8) = true := by
  have hidx : hashFunction v i % (nb * 8) < nb * 8 :=
    Nat.mod_lt _ (by omega)
  have hbyte : hashFunction v i % (nb * 8) / 8 < bs.length := by
    rw [hlen]
    exact (Nat.div_lt_iff_lt_mul (by omega)).mpr hidx
  unfold setBitStep
  rw [getD_set_self _ _ _ _ hbyte, Nat.testBit_lor, Nat.shiftLeft_eq, one_mul,
    Nat.testBit_two_pow_self]
  simp

theorem foldl_setBitStep_sets (v nb : Nat) (hn : 0 < nb) (l : List Nat)
    (bs : List Nat) (hlen : bs.length = nb) (i : Nat) (hi : i ∈ l) :
    ((l.foldl (setBitStep v nb) bs).getD
      (hashFunction v i % (nb * 8) / 8) 0).testBit
      (hashFunction v i % (nb * 8) % 8) = true := by
  induction l generalizing bs with
  | nil => cases hi
  | cons x t ih =>
    rw [List.foldl_cons]
    rcases List.mem_cons.mp hi with rfl | hit
    · exact bitsGe_foldl (setBitStep_bitsGe v nb) t _ _ _
        (setBitStep_sets v nb bs i hn hlen)
    · exact ih (setBitStep v nb bs x) (by rw [setBitStep_length, hlen]) hit

theorem insert_bits_eq (f : BloomFilter) (v : Nat) :
    (f.insert v).bits = (List.range f.hash_count).foldl (setBitStep v f.nbytes) f.bits := rfl

theorem insert_hash_count (f : BloomFilter) (v : Nat) :
    (f.insert v).hash_count = f.hash_count := rfl

theorem insert_nbytes (f : BloomFilter) (v : Nat) :
    (f.insert v).nbytes = f.nbytes := rfl

theorem insert_bits_length (f : BloomFilter) (v : Nat) :
    (f.insert v).bits.length = f.bits.length :=
  length_foldl (setBitStep_length v f.nbytes) _ _

theorem insert_bitsGe (f : BloomFilter) (v : Nat) :
    bitsGe (f.insert v).bits f.bits :=
  bitsGe_foldl (setBitStep_bitsGe v f.nbytes) _ _

theorem foldl_insert_fields (f : BloomFilter) (keys : List Nat) :
    (keys.foldl (fun g x => g.insert x) f).hash_count = f.hash_count ∧
    (keys.foldl (fun g x => g.insert x) f).nbytes = f.nbytes ∧
    (keys.foldl (fun g x => g.insert x) f).bits.length = f.bits.length ∧
    bitsGe (keys.foldl (fun g x => g.insert x) f).bits f.bits := by
  induction keys generalizing f with
  | nil => exact ⟨rfl, rfl, rfl, bitsGe_refl _⟩
  | cons x t ih =>
    rw [List.foldl_cons]
    obtain ⟨h1, h2, h3, h4⟩ := ih (f.insert x)
    exact ⟨h1.trans (insert_hash_count f x), h2.trans (insert_nbytes f x),
      h3.trans (insert_bits_length f x), bitsGe_trans h4 (insert_bitsGe f x)⟩

theorem contains_of_bits (f : BloomFilter) (v : Nat)
    (h : ∀ i, i < f.hash_count →
      ((f.bits.getD (hashFunction v i % (f.nbytes * 8) / 8) 0).testBit
        (hashFunction v i % (f.nbytes * 8) % 8)) = true) :
    f.contains v = true := by
  unfold BloomFilter.contains
  rw [List.all_eq_true]
  intro i hi
  rw [List.mem_range] at hi
  simp only [bne_iff_ne]
  exact (and_shift_ne_zero_iff _ _).mpr (h i hi)

/-- After inserting `x` somewhere in a fold of inserts, `contains x`
holds. -/
theorem contains_foldl_insert (f : BloomFilter) (keys : List Nat) (x : Nat)
    (hwf : f.bits.length = f.nbytes) (hn : 0 < f.nbytes) (hx : x ∈ keys) :
    (keys.foldl (fun g y => g.insert y) f).contains x = true := by
  obtain ⟨pre, post, rfl⟩ := List.append_of_mem hx
  rw [List.foldl_append, List.foldl_cons]
  obtain ⟨hp1, hp2, hp3, -⟩ := foldl_insert_fields f pre
  set f1 := pre.foldl (fun g y => g.insert y) f with hf1
  obtain ⟨hq1, hq2, hq3, hq4⟩ := foldl_insert_fields (f1.insert x) post
  set g := post.foldl (fun g y => g.insert y) (f1.insert x) with hg
  apply contains_of_bits
  intro i hi
  rw [hq1, insert_hash_count, hp1] at hi
  have hnb : g.nbytes = f.nbytes := by
    rw [hq2, insert_nbytes, hp2]
  rw [hnb]
  apply hq4
  have hset := foldl_setBitStep_sets x f1.nbytes (by rw [hp2]; exact hn)
    (List.range f1.hash_count) f1.bits (by rw [hp3, hwf, ← hp2]) i
    (by rw [List.mem_range, hp1]; exact hi)
  rw [← insert_bits_eq] at hset
  rw [hp2] at hset
  exact hset

/-! ## Chunk-level lemmas. -/

theorem le_divCeil_mul (T c : Nat) (hc : 0 < c) : T ≤ divCeil T c * c := by
  unfold divCeil
  have h1 := Nat.div_add_mod (T + c - 1) c
  have h2 := Nat.mod_lt (T + c - 1) hc
  have h3 : c * ((T + c - 1) / c) = (T + c - 1) / c * c := by ring
  omega

theorem div_lt_divCeil {r T c : Nat} (hc : 0 < c) (hr : r < T) :
    r / c < divCeil T c := by
  by_contra h
  push_neg at h
  have h1 : divCeil T c * c ≤ r / c * c := Nat.mul_le_mul_right c h
  have h2 : r / c * c ≤ r := Nat.div_mul_le_self r c
  have h3 := le_divCeil_mul T c hc
  omega

theorem getD_mapIdx {α : Type} (l : List α) (F : Nat → α → α) (i : Nat)
    (h : i < l.length) (d : α) :
    (l.mapIdx F).getD i d = F i (l.getD i d) := by
  rw [List.getD_eq_getElem?_getD, List.getD_eq_getElem?_getD]
  rw [List.getElem?_eq_getElem (by simpa [List.length_mapIdx] using h)]
  rw [List.getElem?_eq_getElem h]
  simp [List.getElem_mapIdx]

theorem takeWhile_lt_eq_nil (t : List Nat) (a : Nat)
    (hall : ∀ y ∈ t, a ≤ y) :
    t.takeWhile (fun y => decide (y < a)) = [] := by
  cases t with
  | nil => rfl
  | cons y t' =>
    rw [List.takeWhile_cons]
    rw [if_neg (by simp; exact hall y (by simp))]

theorem mem_slice_of_sorted (l : List Nat) (hl : l.Sorted (· ≤ ·))
    (r a b : Nat) (hr : r ∈ l) (h1 : a ≤ r) (h2 : r < b) :
    r ∈ (l.take (partitionPoint (fun x => decide (x < b)) l)).drop
      (partitionPoint (fun x => decide (x < a)) l) := by
  induction l with
  | nil => cases hr
  | cons x t ih =>
    rw [List.sorted_cons] at hl
    obtain ⟨hx, ht⟩ := hl
    unfold partitionPoint
    rcases List.mem_cons.mp hr with rfl | hrt
    · have htw1 : (r :: t).takeWhile (fun y => decide (y < a)) = [] := by
        rw [List.takeWhile_cons, if_neg (by simp; omega)]
      have htw2 : (r :: t).takeWhile (fun y => decide (y < b)) =
          r :: t.takeWhile (fun y => decide (y < b)) := by
        rw [List.takeWhile_cons, if_pos (by simp [h2])]
      rw [htw1, htw2]
      simp only [List.length_nil, List.length_cons, List.drop_zero]
      rw [List.take_cons (by omega)]
      simp
    · have hxr : x ≤ r := hx r hrt
      by_cases hxa : x < a
      · have hxb : x < b := by omega
        have htw1 : (x :: t).takeWhile (fun y => decide (y < a)) =
            x :: t.takeWhile (fun y => decide (y < a)) := by
          rw [List.takeWhile_cons, if_pos (by simp [hxa])]
        have htw2 : (x :: t).takeWhile (fun y => decide (y < b)) =
            x :: t.takeWhile (fun y => decide (y < b)) := by
          rw [List.takeWhile_cons, if_pos (by simp [hxb])]
        rw [htw1, htw2]
        simp only [List.length_cons]
        rw [List.take_cons (by omega)]
        simp only [Nat.add_sub_cancel]
        rw [List.drop_succ_cons]
        have hmem := ih ht hrt
        unfold partitionPoint at hmem
        exact hmem
      · have htw1 : (x :: t).takeWhile (fun y => decide (y < a)) = [] := by
          rw [List.takeWhile_cons, if_neg (by simp; omega)]
        by_cases hxb : x < b
        · have htw2 : (x :: t).takeWhile (fun y => decide (y < b)) =
              x :: t.takeWhile (fun y => decide (y < b)) := by
            rw [List.takeWhile_cons, if_pos (by simp [hxb])]
          rw [htw1, htw2]
          simp only [List.length_nil, List.length_cons, List.drop_zero]
          rw [List.take_cons (by omega)]
          simp only [Nat.add_sub_cancel]
          have hta : t.takeWhile (fun y => decide (y < a)) = [] :=
            takeWhile_lt_eq_nil t a (fun y hy => le_trans (by omega) (hx y hy))
          have hmem := ih ht hrt
          unfold partitionPoint at hmem
          rw [hta] at hmem
          simp only [List.length_nil, List.drop_zero] at hmem
          exact List.mem_cons_of_mem x hmem
        · exfalso
          omega

/-- Well-formedness of a chunked index as constructed by `new` /
`with_hash_count`: one leaf per `ceil(total_rows/chunk_size)` chunk, each
leaf with a bit array matching its byte count. -/
def ChunkBloomFilter.ChunkWF (cf : ChunkBloomFilter) : Prop :=
  cf.chunk_filters.length = divCeil cf.total_rows cf.chunk_size ∧
  ∀ f ∈ cf.chunk_filters, f.bits.length = f.nbytes ∧ 0 < f.nbytes

theorem getD_mem {α : Type} (l : List α) (i : Nat) (d : α) (h : i < l.length) :
    l.getD i d ∈ l := by
  rw [List.getD_eq_getElem?_getD, List.getElem?_eq_getElem h]
  exact List.getElem_mem h

theorem lt_div_succ_mul (a c : Nat) (hc : 0 < c) : a < (a / c + 1) * c := by
  have hd := Nat.div_add_mod a c
  have hm := Nat.mod_lt a hc
  have hr : (a / c + 1) * c = a / c * c + c := by ring
  have hc2 : c * (a / c) = a / c * c := by ring
  omega

/-- C2: Bloom filter has no false negatives: a leaf filter reports `contains`
for any value inserted, regardless of further inserts; lifted to the chunked
index, a row inserted directly or via `bulk_insert_sorted` (with its
documented non-decreasing input) and below `total_rows` always satisfies
`may_contain_row`. -/
theorem C2_bloom_no_false_negatives :
    (∀ (f : BloomFilter) (x : Nat) (xs : List Nat),
      f.bits.length = f.nbytes → 0 < f.nbytes →
      ((f.insert x).insertMany xs).contains x = true) ∧
    (∀ (cf : ChunkBloomFilter) (r : Nat), cf.ChunkWF → 0 < cf.chunk_size →
      r < cf.total_rows → (cf.insert r).may_contain_row r = true) ∧
    (∀ (cf : ChunkBloomFilter) (rows : List Nat) (r : Nat), cf.ChunkWF →
      0 < cf.chunk_size → rows.Sorted (· ≤ ·) → r ∈ rows →
      r < cf.total_rows →
      (cf.bulkInsertSorted rows).may_contain_row r = true) := by
  refine ⟨?_, ?_, ?_⟩
  · intro f x xs hwf hn
    have : (f.insert x).insertMany xs =
        (x :: xs).foldl (fun g y => g.insert y) f := by
      rw [List.foldl_cons]
      rfl
    rw [this]
    exact contains_foldl_insert f (x :: xs) x hwf hn (by simp)
  · intro cf r hWF hcs hr
    obtain ⟨hlen, hwf⟩ := hWF
    have hidx : r / cf.chunk_size < cf.chunk_filters.length := by
      rw [hlen]
      exact div_lt_divCeil hcs hr
    obtain ⟨hw1, hw2⟩ := hwf _ (getD_mem cf.chunk_filters (r / cf.chunk_size)
      defaultBF hidx)
    have hcontains := contains_foldl_insert
      (cf.chunk_filters.getD (r / cf.chunk_size) defaultBF)
      [r % cf.chunk_size] (r % cf.chunk_size) hw1 hw2 (by simp)
    simp only [List.foldl_cons, List.foldl_nil] at hcontains
    simp only [ChunkBloomFilter.insert, ChunkBloomFilter.may_contain_row]
    rw [if_pos hidx]
    simp only [List.length_set]
    rw [if_pos hidx]
    rw [getD_set_self _ _ _ _ hidx]
    exact hcontains
  · intro cf rows r hWF hcs hsort hmem hr
    obtain ⟨hlen, hwf⟩ := hWF
    have hne : rows ≠ [] := by
      intro h
      rw [h] at hmem
      cases hmem
    have hidx : r / cf.chunk_size < cf.chunk_filters.length := by
      rw [hlen]
      exact div_lt_divCeil hcs hr
    unfold ChunkBloomFilter.bulkInsertSorted
    rw [if_neg hne]
    unfold ChunkBloomFilter.may_contain_row
    simp only [List.length_mapIdx]
    rw [if_pos hidx]
    rw [getD_mapIdx cf.chunk_filters _ (r / cf.chunk_size) hidx defaultBF]
    set f0 := cf.chunk_filters.getD (r / cf.chunk_size) defaultBF with hf0
    obtain ⟨hw1, hw2⟩ := hwf f0 (getD_mem cf.chunk_filters (r / cf.chunk_size)
      defaultBF hidx)
    have hslice : r ∈ (rows.take (partitionPoint
        (fun x => decide (x < (r / cf.chunk_size + 1) * cf.chunk_size)) rows)).drop
        (partitionPoint (fun x => decide (x < r / cf.chunk_size * cf.chunk_size)) rows) :=
      mem_slice_of_sorted rows hsort r _ _ hmem (Nat.div_mul_le_self r _)
        (lt_div_succ_mul r cf.chunk_size hcs)
    have hfold : ((rows.take (partitionPoint
        (fun x => decide (x < (r / cf.chunk_size + 1) * cf.chunk_size)) rows)).drop
        (partitionPoint (fun x => decide (x < r / cf.chunk_size * cf.chunk_size))
          rows)).foldl (fun g x => g.insert (x % cf.chunk_size)) f0 =
        (((rows.take (partitionPoint
          (fun x => decide (x < (r / cf.chunk_size + 1) * cf.chunk_size)) rows)).drop
          (partitionPoint (fun x => decide (x < r / cf.chunk_size * cf.chunk_size))
            rows)).map (fun x => x % cf.chunk_size)).foldl
          (fun g y => g.insert y) f0 := by
      rw [List.foldl_map]
    rw [hfold]
    exact contains_foldl_insert f0 _ (r % cf.chunk_size) hw1 hw2
      (List.mem_map_of_mem _ hslice)

theorem C2_bloom_no_false_negatives_witness :
    ((BloomFilter.withHashCount 8 3).insert 5 |>.insertMany [7, 9]).contains 5
        = true ∧
      ((ChunkBloomFilter.new 10 4).insert 6).may_contain_row 6 = true ∧
      ((ChunkBloomFilter.new 10 4).bulkInsertSorted [1, 6, 9]).may_contain_row 6
        = true := by
  refine ⟨C2_bloom_no_false_negatives.1 (BloomFilter.withHashCount 8 3) 5 [7, 9]
    (by decide) (by decide), ?_, ?_⟩
  · exact C2_bloom_no_false_negatives.2.1 (ChunkBloomFilter.new 10 4) 6
      (by constructor <;> decide) (by decide) (by decide)
  · exact C2_bloom_no_false_negatives.2.2 (ChunkBloomFilter.new 10 4) [1, 6, 9] 6
      (by constructor <;> decide) (by decide) (by decide) (by decide) (by decide)

/-! ## Chunked-index serialization round trip (C10). -/

theorem deserializeChunks_concat (fs : List BloomFilter) (P : List Nat)
    (off : Nat) (hP : P.length = off)
    (hwf : ∀ f ∈ fs, f.nbytes = 8 ∧ f.bits.length = 8 ∧ f.hash_count < 256) :
    deserializeChunks
      (P ++ (fs.map (fun f => f.hash_count % 256 :: f.bits)).flatten)
      off fs.length = .ok fs := by
  induction fs generalizing P off with
  | nil => rfl
  | cons f fs ih =>
    obtain ⟨hnb, hlen8, hhc⟩ := hwf f (by simp)
    have hdata : P ++ ((f :: fs).map (fun g => g.hash_count % 256 :: g.bits)).flatten
        = (P ++ (f.hash_count % 256 :: f.bits)) ++
          (fs.map (fun g => g.hash_count % 256 :: g.bits)).flatten := by
      simp [List.append_assoc]
    rw [List.length_cons]
    show deserializeChunks _ off (fs.length + 1) = _
    unfold deserializeChunks
    rw [if_neg ?hlenok]
    case hlenok =>
      rw [hdata]
      simp only [List.length_append, List.length_cons, not_lt, hP, hlen8]
      omega
    have hstep : P ++ ((f :: fs).map (fun g => g.hash_count % 256 :: g.bits)).flatten
        = (P ++ (f.hash_count % 256 :: f.bits)) ++
          (fs.map (fun g => g.hash_count % 256 :: g.bits)).flatten := hdata
    have hrec := ih (P ++ (f.hash_count % 256 :: f.bits)) (off + 9)
      (by simp [hP, hlen8])
      (fun g hg => hwf g (by simp [hg]))
    rw [hstep, hrec, bindE_ok]
    have hhead : ((P ++ (f.hash_count % 256 :: f.bits)) ++
        (fs.map (fun g => g.hash_count % 256 :: g.bits)).flatten).getD off 0 =
          f.hash_count % 256 := by
      rw [List.append_assoc]
      rw [List.getD_append_right _ _ _ _ (by omega)]
      simp [hP]
    have hbits : (((P ++ (f.hash_count % 256 :: f.bits)) ++
        (fs.map (fun g => g.hash_count % 256 :: g.bits)).flatten).drop
          (off + 1)).take 8 = f.bits := by
      have hre : (P ++ (f.hash_count % 256 :: f.bits)) ++
          (fs.map (fun g => g.hash_count % 256 :: g.bits)).flatten =
          (P ++ [f.hash_count % 256]) ++
            (f.bits ++ (fs.map (fun g => g.hash_count % 256 :: g.bits)).flatten) := by
        simp [List.append_assoc]
      rw [hre, drop_of_length_eq (by simp [hP])]
      exact take_of_length_eq hlen8
    rw [hhead, hbits]
    unfold BloomFilter.from_bits
    have : (⟨8, f.bits, f.hash_count % 256⟩ : BloomFilter) = f := by
      cases f
      simp only [BloomFilter.mk.injEq]
      simp_all [Nat.mod_eq_of_lt]
    rw [this]

/-- C10: chunked-bloom-index serialization round trip: for every
`ChunkBloomFilter` whose `chunk_size`, `total_rows` and chunk count fit in
`u32` (with 8-byte leaves as `BloomFilter64` guarantees), `deserialize`
of `serialize` succeeds and returns an index equal field-by-field — hence
with identical `may_contain_row` answers. -/
theorem C10_chunk_serial_roundtrip (cf : ChunkBloomFilter)
    (h1 : cf.chunk_size < 2 ^ 32) (h2 : cf.total_rows < 2 ^ 32)
    (h3 : cf.chunk_filters.length < 2 ^ 32)
    (hwf : ∀ f ∈ cf.chunk_filters,
      f.nbytes = 8 ∧ f.bits.length = 8 ∧ f.hash_count < 256) :
    ChunkBloomFilter.deserialize cf.serialize = .ok cf := by
  have hshape : cf.serialize = u32le cf.chunk_size ++ (u32le cf.total_rows ++
      (u32le cf.chunk_filters.length ++
        (cf.chunk_filters.map (fun f => f.hash_count % 256 :: f.bits)).flatten)) := by
    simp [ChunkBloomFilter.serialize, List.append_assoc]
  have e0 : readU32 cf.serialize 0 = cf.chunk_size := by
    rw [show cf.serialize = [] ++ (u32le cf.chunk_size ++ (u32le cf.total_rows ++
      (u32le cf.chunk_filters.length ++
        (cf.chunk_filters.map (fun f => f.hash_count % 256 :: f.bits)).flatten)))
      from by rw [hshape]; rfl]
    exact readU32_concat _ _ _ 0 rfl h1
  have e4 : readU32 cf.serialize 4 = cf.total_rows := by
    rw [hshape]
    exact readU32_concat _ _ _ 4 (by simp [u32le, length_leEnc]) h2
  have e8 : readU32 cf.serialize 8 = cf.chunk_filters.length := by
    rw [show cf.serialize = (u32le cf.chunk_size ++ u32le cf.total_rows) ++
      (u32le cf.chunk_filters.length ++
        (cf.chunk_filters.map (fun f => f.hash_count % 256 :: f.bits)).flatten)
      from by rw [hshape]; simp [List.append_assoc]]
    exact readU32_concat _ _ _ 8 (by simp [u32le, length_leEnc]) h3
  have hdes : deserializeChunks cf.serialize 12 cf.chunk_filters.length =
      .ok cf.chunk_filters := by
    rw [show cf.serialize = (u32le cf.chunk_size ++ (u32le cf.total_rows ++
      u32le cf.chunk_filters.length)) ++
      (cf.chunk_filters.map (fun f => f.hash_count % 256 :: f.bits)).flatten
      from by rw [hshape]; simp [List.append_assoc]]
    exact deserializeChunks_concat cf.chunk_filters _ 12
      (by simp [u32le, length_leEnc]) hwf
  unfold ChunkBloomFilter.deserialize
  rw [if_neg (by rw [hshape]; simp [u32le, length_leEnc]; omega)]
  rw [e8, hdes, bindE_ok, e0, e4]

theorem C10_chunk_serial_roundtrip_witness :
    ChunkBloomFilter.deserialize
      (ChunkBloomFilter.serialize
        { chunk_filters := [BloomFilter.from_bits 8 [1, 2, 3, 4, 5, 6, 7, 8] 3]
          chunk_size := 4, total_rows := 3 }) =
      .ok { chunk_filters := [BloomFilter.from_bits 8 [1, 2, 3, 4, 5, 6, 7, 8] 3]
            chunk_size := 4, total_rows := 3 } :=
  C10_chunk_serial_roundtrip _ (by decide) (by decide) (by decide) (by decide)

/-! ## Label lookup (C9). -/

theorem row_labels_array_ok (v : MetadataView) (la : LabelArrayHeader)
    (hsz : v.header.row_labels_size ≠ 0)
    (hbound : v.header.row_labels_offset + v.header.row_labels_size ≤ v.data.length)
    (harr : LabelArrayHeader.fromBytes
      ((v.data.drop v.header.row_labels_offset).take v.header.row_labels_size)
      = .ok la) :
    v.row_labels_array = .ok la := by
  simp only [MetadataView.row_labels_array]
  rw [if_neg hsz, if_neg (by omega)]
  exact harr

/-- C9 (amended): for every metadata view whose row-label region lies inside
the window, decodes to a label-array header `(count, stride)`, and whose
`8 + count * stride` bytes fit in the declared region size, `row_label i`
returns exactly `stride` bytes for every `i < count`, and returns the
`binsparse` `InvalidState ("Row index out of bounds")` error — not
`InvalidMetadata` — for every `i ≥ count`. -/
theorem C9_label_lookup (v : MetadataView) (la : LabelArrayHeader)
    (hsz : v.header.row_labels_size ≠ 0)
    (hbound : v.header.row_labels_offset + v.header.row_labels_size ≤ v.data.length)
    (harr : LabelArrayHeader.fromBytes
      ((v.data.drop v.header.row_labels_offset).take v.header.row_labels_size)
      = .ok la)
    (hfit : 8 + la.count * la.stride ≤ v.header.row_labels_size) :
    (∀ i, i < la.count →
      v.row_label i =
        .ok ((v.data.drop
          (v.header.row_labels_offset + 8 + i * la.stride)).take la.stride) ∧
      ((v.data.drop
          (v.header.row_labels_offset + 8 + i * la.stride)).take la.stride).length
        = la.stride) ∧
    (∀ i, la.count ≤ i →
      v.row_label i = .error (.InvalidState ("Row index out of bounds"))) := by
  have hra := row_labels_array_ok v la hsz hbound harr
  constructor
  · intro i hi
    have hmul : i * la.stride + la.stride ≤ la.count * la.stride := by
      have := Nat.mul_le_mul_right la.stride (show i + 1 ≤ la.count from hi)
      simpa [Nat.succ_mul] using this
    constructor
    · simp only [MetadataView.row_label, hra, bindE_ok, throwE, pureE]
      rw [if_neg (by omega), if_neg (by omega)]
    · simp only [List.length_take, List.length_drop]
      omega
  · intro i hi
    simp only [MetadataView.row_label, hra, bindE_ok, throwE, pureE]
    rw [if_pos hi]

/-- A 54-byte metadata window: "META" header declaring a row-label region at
offset 40 of 14 bytes, holding `(count, stride) = (2, 3)` and two labels. -/
def sampleMeta : List Nat :=
  magicMETA ++ [1, 0, 0, 0] ++ u64le 40 ++ u64le 14 ++ u64le 0 ++ u64le 0 ++
    (u32le 2 ++ u32le 3 ++ [10, 11, 12, 20, 21, 22])

/-- The decoded view of `sampleMeta`. -/
def sampleView : MetadataView :=
  { data := sampleMeta
    header := { magic := magicMETA, version := 1
                row_labels_offset := 40, row_labels_size := 14
                col_labels_offset := 0, col_labels_size := 0 } }

set_option maxRecDepth 20000 in
/-- C9 counterexample: an out-of-bounds index makes the cited `bspc` label
lookup return the `binsparse` `InvalidState ("Row index out of bounds")`
error; the `InvalidMetadata` kind does not occur in the label-lookup path
(the `binsparse` error type carries no such kind at all). -/
theorem C9_label_oob_cex :
    (MetadataView.new sampleMeta).bind (fun v => v.row_label 2) =
      .error (.InvalidState ("Row index out of bounds")) := by decide

set_option maxRecDepth 20000 in
theorem C9_label_lookup_witness :
    MetadataView.row_label sampleView 1 = .ok [20, 21, 22] ∧
    MetadataView.row_label sampleView 2 =
      .error (.InvalidState ("Row index out of bounds")) :=
  ⟨by
    have h := (C9_label_lookup sampleView ⟨2, 3⟩ (by decide) (by decide)
      (by decide) (by decide)).1 1 (by decide)
    rw [h.1]; decide,
   (C9_label_lookup sampleView ⟨2, 3⟩ (by decide) (by decide)
      (by decide) (by decide)).2 2 (by decide)⟩

/-! ## The memory-mapped reader (`bspc/src/mmap_backend/mmap_core.rs` and
`bspc/src/mmap_backend.rs`).  A file is a byte list; the mmap base address is
page-aligned, so a slice's pointer alignment modulo the element alignment
(4 or 8 for the six `MatrixElement` types, equal to the element size) equals
its file offset modulo that alignment. -/

/-- `validate_u32_array_size` (`mmap_core.rs`). -/
def validate_u32_array_size (byte_len : Nat) : Except Err Nat :=
  if byte_len % 4 ≠ 0 then
    .error (.InvalidState ("Array size not aligned to u32 size"))
  else
    let count := byte_len / 4
    if 2 ^ 63 - 1 < count then
      .error (.InvalidState ("u32 array too large for safe indexing"))
    else if 2 ^ 64 ≤ count * 4 then
      .error (.InvalidState ("u32 array size calculation would overflow"))
    else .ok count

/-- `create_typed_slice::<T>` (`mmap_core.rs`): `sz` is the element size (=
alignment), `off` the file offset of the slice (mmap base is page-aligned). -/
def create_typed_slice (sz off : Nat) (bytes : List Nat) : Except Err (List Nat) :=
  if bytes.length % sz ≠ 0 then
    .error (.InvalidState ("Array size not aligned to element size"))
  else if off % sz ≠ 0 then
    .error (.InvalidState ("Array not properly aligned"))
  else .ok ((List.range (bytes.length / sz)).map
    (fun i => leDec ((bytes.drop (i * sz)).take sz)))

/-- `create_u32_slice` (`mmap_core.rs`). -/
def create_u32_slice (off : Nat) (bytes : List Nat) : Except Err (List Nat) := do
  let len ← validate_u32_array_size bytes.length
  let slice ← create_typed_slice 4 off bytes
  if slice.length ≠ len then
    throw (.InvalidState ("U32 slice length mismatch"))
  else
    return slice

/-- `unique_rows` collection in `MmapMatrix::from_file` and
`create_bloom_filter`: keep each run of equal consecutive rows once. -/
def uniqueConsecutive : Option Nat → List Nat → List Nat
  | _, [] => []
  | prev, r :: rest =>
    if prev = some r then uniqueConsecutive prev rest
    else r :: uniqueConsecutive (some r) rest

/-- `MmapMatrix<T>`: the decoded header, the three decoded arrays and the
chunked bloom filter (the mmap handle and raw pointers carry no further
state). -/
structure MmapMatrix where
  header : BspcHeader
  values : List Nat
  row_indices : List Nat
  col_indices : List Nat
  chunk_bloom_filter : ChunkBloomFilter

/-- The header decode step of `from_file`: `BspcHeader::from_bytes` with its
error mapped to `InvalidState` (`.map_err` in `mmap_core.rs`). -/
def decodeHeaderMapErr (bytes : List Nat) : Except Err BspcHeader :=
  match BspcHeader.fromBytes (bytes.take 160) with
  | .ok h => .ok h
  | .error _ => .error (.InvalidState ("Invalid BSPC header format"))

/-- `MmapMatrix::from_file` (`mmap_core.rs`), on the mapped bytes: header
decode (`format.rs` `BspcHeader::from_bytes`, its error discarded), checked
offset arithmetic, bounds, optional bloom-filter load with silent rebuild,
alignment checks, typed slices, and the two consistency checks. -/
def MmapMatrix.fromFile (sz : Nat) (bytes : List Nat) : Except Err MmapMatrix := do
  if bytes.length < 160 then
    throw (.InvalidState ("File too small for header"))
  else
    let header ← decodeHeaderMapErr bytes
    if 2 ^ 64 ≤ header.values_offset + header.values_size then
      throw (.InvalidState ("Integer overflow in values calculation"))
    else if 2 ^ 64 ≤ header.indices_0_offset + header.indices_0_size then
      throw (.InvalidState ("Integer overflow in row indices calculation"))
    else if 2 ^ 64 ≤ header.indices_1_offset + header.indices_1_size then
      throw (.InvalidState ("Integer overflow in column indices calculation"))
    else if bytes.length < header.values_offset + header.values_size ∨
        bytes.length < header.indices_0_offset + header.indices_0_size ∨
        bytes.length < header.indices_1_offset + header.indices_1_size then
      throw (.InvalidState ("Arrays extend beyond file"))
    else
      let loaded : Option ChunkBloomFilter :=
        if header.bloom_filter_offset ≠ 0 ∧ header.bloom_filter_size ≠ 0 ∧
            header.bloom_filter_offset + header.bloom_filter_size ≤ bytes.length then
          match ChunkBloomFilter.deserialize
              ((bytes.drop header.bloom_filter_offset).take header.bloom_filter_size) with
          | .ok b => some b
          | .error _ => none
        else none
      if header.values_offset % sz ≠ 0 then
        throw (.InvalidState ("Values array not properly aligned"))
      else if header.indices_0_offset % 4 ≠ 0 then
        throw (.InvalidState ("Row indices array not properly aligned"))
      else if header.indices_1_offset % 4 ≠ 0 then
        throw (.InvalidState ("Column indices array not properly aligned"))
      else
        let values ← create_typed_slice sz header.values_offset
          ((bytes.drop header.values_offset).take header.values_size)
        let row_indices ← create_u32_slice header.indices_0_offset
          ((bytes.drop header.indices_0_offset).take header.indices_0_size)
        let col_indices ← create_u32_slice header.indices_1_offset
          ((bytes.drop header.indices_1_offset).take header.indices_1_size)
        if values.length ≠ row_indices.length ∨ values.length ≠ col_indices.length then
          throw (.InvalidState ("Array lengths don't match"))
        else if values.length ≠ header.nnz then
          throw (.InvalidState ("Array length doesn't match nnz"))
        else
          let bloom := match loaded with
            | some b => b
            | none =>
              (ChunkBloomFilter.new header.nrows 100000).bulkInsertSorted
                (uniqueConsecutive none row_indices)
          return { header := header, values := values, row_indices := row_indices
                   col_indices := col_indices, chunk_bloom_filter := bloom }

/-- The COO entry stream `(row, col, value)` the accessors iterate over
(`row_indices[i]`, `col_indices[i]`, `values[i]`). -/
def MmapMatrix.entries (m : MmapMatrix) : List (Nat × Nat × Nat) :=
  m.row_indices.zip (m.col_indices.zip m.values)

/-- The scan loop of `MmapMatrix::get_element`: per-entry dimension checks,
then the coordinate match. -/
def scanGet (nrows ncols row col : Nat) :
    List (Nat × Nat × Nat) → Except Err (Option Nat)
  | [] => .ok none
  | (r, c, v) :: rest =>
    if nrows ≤ r then
      .error (.InvalidState ("Corrupted data: row index exceeds matrix dimensions"))
    else if ncols ≤ c then
      .error (.InvalidState ("Corrupted data: column index exceeds matrix dimensions"))
    else if r = row ∧ c = col then .ok (some v)
    else scanGet nrows ncols row col rest

/-- `MmapMatrix::get_element` (`mmap_backend.rs`). -/
def MmapMatrix.get_element (m : MmapMatrix) (row col : Nat) :
    Except Err (Option Nat) :=
  if m.header.nrows ≤ row then
    .error (.InvalidState ("Row index out of bounds"))
  else if m.header.ncols ≤ col then
    .error (.InvalidState ("Column index out of bounds"))
  else if m.values.length ≠ m.row_indices.length ∨
      m.values.length ≠ m.col_indices.length then
    .error (.InvalidState ("Corrupted data: array lengths don't match"))
  else
    scanGet m.header.nrows m.header.ncols row col m.entries

/-- `MmapMatrix::row_view` (`mmap_backend.rs`): a `filter_map` that keeps an
entry only when its row matches and both stored indices are in bounds. -/
def MmapMatrix.row_view (m : MmapMatrix) (row : Nat) :
    Except Err (List (Nat × Nat)) :=
  if m.header.nrows ≤ row then
    .error (.InvalidState ("Row index out of bounds"))
  else
    .ok (m.entries.filterMap (fun t =>
      if t.1 = row ∧ t.1 < m.header.nrows ∧ t.2.1 < m.header.ncols then
        some (t.2.1, t.2.2)
      else none))

/-- `MmapMatrix::col_view` (`mmap_backend.rs`). -/
def MmapMatrix.col_view (m : MmapMatrix) (col : Nat) :
    Except Err (List (Nat × Nat)) :=
  if m.header.ncols ≤ col then
    .error (.InvalidState ("Column index out of bounds"))
  else
    .ok (m.entries.filterMap (fun t =>
      if t.2.1 = col ∧ t.1 < m.header.nrows ∧ t.2.1 < m.header.ncols then
        some (t.1, t.2.2)
      else none))

/-- `MmapMatrix::row_range_view` (`mmap_backend.rs`). -/
def MmapMatrix.row_range_view (m : MmapMatrix) (start_row end_row : Nat) :
    Except Err (List (Nat × Nat × Nat)) :=
  if m.header.nrows ≤ start_row ∨ m.header.nrows < end_row ∨ end_row ≤ start_row then
    .error (.InvalidState ("Invalid row range"))
  else
    .ok (m.entries.filterMap (fun t =>
      if start_row ≤ t.1 ∧ t.1 < end_row ∧ t.1 < m.header.nrows ∧
          t.2.1 < m.header.ncols then
        some t
      else none))

/-! ## Hostile-file iterator behavior (C5). -/

theorem scanGet_clean_prefix (nrows ncols row col : Nat)
    (pre rest : List (Nat × Nat × Nat))
    (hpre : ∀ t ∈ pre, t.1 < nrows ∧ t.2.1 < ncols ∧
      ¬(t.1 = row ∧ t.2.1 = col)) :
    scanGet nrows ncols row col (pre ++ rest) = scanGet nrows ncols row col rest := by
  induction pre with
  | nil => rfl
  | cons a as ih =>
    obtain ⟨r, c, v⟩ := a
    have h := hpre (r, c, v) (by simp)
    show scanGet nrows ncols row col ((r, c, v) :: (as ++ rest)) = _
    simp only [scanGet]
    rw [if_neg (not_le.mpr h.1), if_neg (not_le.mpr h.2.1), if_neg h.2.2]
    exact ih (fun t ht => hpre t (by simp [ht]))

/-- C5 (amended): the iterators never raise per-entry corruption errors — for
an in-range row, `row_view` always succeeds and yields only entries whose
stored column is in bounds (out-of-range entries are silently dropped by its
`filter_map`); `get_element`, by contrast, scans the stream and raises the
corrupted-row error as soon as it meets an entry whose stored row exceeds
`nrows`, provided no earlier entry matched. -/
theorem C5_iterator_checks (m : MmapMatrix) (row col : Nat)
    (hr : row < m.header.nrows) (hc : col < m.header.ncols)
    (hlen : m.row_indices.length = m.values.length ∧
            m.col_indices.length = m.values.length) :
    (∃ l, m.row_view row = .ok l ∧ ∀ p ∈ l, p.1 < m.header.ncols) ∧
    (∀ pre r c v rest,
      m.entries = pre ++ (r, c, v) :: rest →
      (∀ t ∈ pre, t.1 < m.header.nrows ∧ t.2.1 < m.header.ncols ∧
        ¬(t.1 = row ∧ t.2.1 = col)) →
      m.header.nrows ≤ r →
      m.get_element row col =
        .error (.InvalidState ("Corrupted data: row index exceeds matrix dimensions"))) := by
  constructor
  · unfold MmapMatrix.row_view
    rw [if_neg (not_le.mpr hr)]
    refine ⟨_, rfl, ?_⟩
    intro p hp
    rw [List.mem_filterMap] at hp
    obtain ⟨t, ht, hft⟩ := hp
    by_cases hcond : t.1 = row ∧ t.1 < m.header.nrows ∧ t.2.1 < m.header.ncols
    · rw [if_pos hcond] at hft
      have : (t.2.1, t.2.2) = p := by exact Option.some.inj hft
      subst this
      exact hcond.2.2
    · rw [if_neg hcond] at hft
      exact absurd hft (by simp)
  · intro pre r c v rest hsplit hpre hcorr
    unfold MmapMatrix.get_element
    rw [if_neg (not_le.mpr hr), if_neg (not_le.mpr hc)]
    rw [if_neg (by rw [hlen.1, hlen.2]; simp)]
    rw [hsplit, scanGet_clean_prefix _ _ _ _ pre _ hpre]
    simp only [scanGet]
    rw [if_pos hcorr]

/-- A syntactically valid header (1×1 matrix, one entry, arrays laid out at
offsets 160/168/172, no bloom region) over a hostile entry stream. -/
def hostileHeader : BspcHeader :=
  { BspcHeader.new with
    nrows := 1, ncols := 1, nnz := 1
    data_type := 5
    values_offset := 160, values_size := 8
    indices_0_offset := 168, indices_0_size := 4
    indices_1_offset := 172, indices_1_size := 4 }

/-- A 176-byte hostile file: valid header, but the single entry stores row
index 5 in a 1×1 matrix. -/
def hostileBytes : List Nat :=
  hostileHeader.toBytes ++ u64le 42 ++ u32le 5 ++ u32le 0

set_option maxRecDepth 20000 in
/-- C5 counterexample: opening the hostile file succeeds, and `row_view 0`
silently returns the empty iterator — dropping the corrupt entry without any
error — while `get_element 0 0` on the very same matrix raises the
corrupted-row error for it. -/
theorem C5_hostile_cex :
    (MmapMatrix.fromFile 8 hostileBytes).bind (fun m => m.row_view 0) =
      .ok [] ∧
    (MmapMatrix.fromFile 8 hostileBytes).bind (fun m => m.get_element 0 0) =
      .error (.InvalidState ("Corrupted data: row index exceeds matrix dimensions")) := by
  decide

/-- The decoded hostile matrix. -/
def hostileM : MmapMatrix :=
  { header := hostileHeader, values := [42], row_indices := [5]
    col_indices := [0], chunk_bloom_filter := ChunkBloomFilter.new 1 100000 }

set_option maxRecDepth 20000 in
theorem C5_iterator_checks_witness :
    MmapMatrix.row_view hostileM 0 = .ok [] ∧
    MmapMatrix.get_element hostileM 0 0 =
      .error (.InvalidState ("Corrupted data: row index exceeds matrix dimensions")) := by
  have h := C5_iterator_checks hostileM 0 0 (by decide) (by decide) (by decide)
  exact ⟨by decide, h.2 [] 5 0 42 [] (by decide) (by decide) (by decide)⟩

/-! ## The writer (`bspc/src/mmap_backend/file_io.rs`) and the write/read
round trip (C1). -/

structure FileLayout where
  values_offset : Nat
  values_size : Nat
  indices_0_offset : Nat
  indices_0_size : Nat
  indices_1_offset : Nat
  indices_1_size : Nat

/-- `FileLayout::calculate::<T>` (`file_io.rs`): `sz` is both the element
size and the alignment of `T` (equal for the six `MatrixElement` types);
sizes use `checked_mul`, offsets are aligned upward with `div_ceil`.  The
unchecked `u64` sums stay below `2^64` for every input the round-trip
theorem admits. -/
def FileLayout.calculate (sz nnz : Nat) : Except Err FileLayout :=
  let values_offset := divCeil 160 sz * sz
  if 2 ^ 64 ≤ nnz * sz then
    .error (.InvalidState ("Values size calculation would overflow"))
  else
    let values_size := nnz * sz
    let indices_0_offset := divCeil (values_offset + values_size) 4 * 4
    if 2 ^ 64 ≤ nnz * 4 then
      .error (.InvalidState ("Indices size calculation would overflow"))
    else
      let indices_0_size := nnz * 4
      let indices_1_offset := divCeil (indices_0_offset + indices_0_size) 4 * 4
      .ok { values_offset := values_offset, values_size := values_size
            indices_0_offset := indices_0_offset, indices_0_size := indices_0_size
            indices_1_offset := indices_1_offset, indices_1_size := indices_0_size }

/-- `create_bloom_filter` (`file_io.rs`): a fresh chunked filter over `nrows`
with the configured chunk size, bulk-fed the consecutive-unique rows. -/
def createBloomFilter (triples : List (Nat × Nat × Nat)) (nrows chunk_size : Nat) :
    ChunkBloomFilter :=
  (ChunkBloomFilter.new nrows chunk_size).bulkInsertSorted
    (uniqueConsecutive none (triples.map (fun t => t.1)))

/-- The header assembled by `write_sparse_matrix` (its `BspcHeader::new()`
plus the field assignments). -/
def writerHeader (dt nrows ncols nnz bloomLen : Nat) (layout : FileLayout) :
    BspcHeader :=
  { BspcHeader.new with
    nrows := nrows, ncols := ncols, nnz := nnz
    format_type := 0, data_type := dt
    values_offset := layout.values_offset, values_size := layout.values_size
    indices_0_offset := layout.indices_0_offset
    indices_0_size := layout.indices_0_size
    indices_1_offset := layout.indices_1_offset
    indices_1_size := layout.indices_1_size
    bloom_filter_offset := layout.indices_1_offset + layout.indices_1_size
    bloom_filter_size := bloomLen
    pointers_offset := 0, pointers_size := 0 }

/-- `BspcFile::write_sparse_matrix::<T>` (`file_io.rs`), as the byte stream
it writes: header, padding to each aligned offset, the little-endian value
bytes, the two `u32` index streams (`row as u32` truncates), then the
serialized bloom filter.  The rayon chunking concatenates to the same
stream. -/
def writeSparseMatrix (sz dt : Nat) (nrows ncols : Nat)
    (triples : List (Nat × Nat × Nat)) (chunk_size : Nat) :
    Except Err (List Nat) := do
  let nnz := triples.length
  let layout ← FileLayout.calculate sz nnz
  let bloomData := (createBloomFilter triples nrows chunk_size).serialize
  let header : BspcHeader := writerHeader dt nrows ncols nnz bloomData.length layout
  let headerBytes := header.toBytes
  let pad0 := List.replicate (layout.values_offset - headerBytes.length) 0
  let valuesBytes := (triples.map (fun t => leEnc sz t.2.2)).flatten
  let pad1 := List.replicate
    (layout.indices_0_offset - (layout.values_offset + layout.values_size)) 0
  let rowBytes := (triples.map (fun t => u32le (t.1 % 2 ^ 32))).flatten
  let pad2 := List.replicate
    (layout.indices_1_offset - (layout.indices_0_offset + layout.indices_0_size)) 0
  let colBytes := (triples.map (fun t => u32le (t.2.1 % 2 ^ 32))).flatten
  return headerBytes ++ pad0 ++ valuesBytes ++ pad1 ++ rowBytes ++ pad2
    ++ colBytes ++ bloomData

theorem length_flatten_const {α : Type} (f : α → List Nat) (k : Nat)
    (l : List α) (h : ∀ x ∈ l, (f x).length = k) :
    ((l.map f).flatten).length = l.length * k := by
  induction l with
  | nil => simp
  | cons a t ih =>
    simp only [List.map_cons, List.flatten_cons, List.length_append,
      List.length_cons]
    rw [h a (by simp), ih (fun x hx => h x (by simp [hx]))]
    ring

theorem divCeil_mul_of_dvd (x d : Nat) (hd : 0 < d) (hdvd : d ∣ x) :
    divCeil x d * d = x := by
  obtain ⟨q, rfl⟩ := hdvd
  unfold divCeil
  have he : d * q + d - 1 = (d - 1) + d * q := by omega
  rw [he, Nat.add_mul_div_left _ _ hd, Nat.div_eq_of_lt (by omega)]
  ring

theorem divCeil_le_self (n c : Nat) (hc : 0 < c) : divCeil n c ≤ n := by
  unfold divCeil
  have hmul : n ≤ n * c := Nat.le_mul_of_pos_right n hc
  have h : n + c - 1 < (n + 1) * c := by
    have : (n + 1) * c = n * c + c := by ring
    omega
  exact Nat.lt_succ_iff.mp ((Nat.div_lt_iff_lt_mul hc).mpr h)

theorem bulkInsertSorted_chunk_filters_length (cf : ChunkBloomFilter)
    (u : List Nat) :
    (cf.bulkInsertSorted u).chunk_filters.length = cf.chunk_filters.length := by
  unfold ChunkBloomFilter.bulkInsertSorted
  by_cases h : u = []
  · rw [if_pos h]
  · rw [if_neg h]
    simp [List.length_mapIdx]

theorem foldl_insert_mod_length (cs : Nat) (keys : List Nat) (f : BloomFilter) :
    (keys.foldl (fun g r => g.insert (r % cs)) f).bits.length = f.bits.length := by
  induction keys generalizing f with
  | nil => rfl
  | cons x t ih =>
    rw [List.foldl_cons, ih]
    exact insert_bits_length f _

theorem bulkInsertSorted_bits_length (cf : ChunkBloomFilter) (u : List Nat)
    (hwf : ∀ f ∈ cf.chunk_filters, f.bits.length = 8) :
    ∀ f ∈ (cf.bulkInsertSorted u).chunk_filters, f.bits.length = 8 := by
  simp only [ChunkBloomFilter.bulkInsertSorted]
  by_cases h : u = []
  · rw [if_pos h]; exact hwf
  · rw [if_neg h]
    intro f hf
    rw [List.mem_iff_getElem] at hf
    obtain ⟨i, hi, hfe⟩ := hf
    rw [List.getElem_mapIdx] at hfe
    rw [← hfe]
    rw [foldl_insert_mod_length]
    exact hwf _ (List.getElem_mem _)

theorem serialize_length_new_bulk (nrows cs : Nat) (u : List Nat) :
    ((ChunkBloomFilter.new nrows cs).bulkInsertSorted u).serialize.length
      = 12 + divCeil nrows cs * 9 := by
  have hnew : ∀ f ∈ (ChunkBloomFilter.new nrows cs).chunk_filters,
      f.bits.length = 8 := by
    intro f hf
    simp only [ChunkBloomFilter.new] at hf
    rw [List.eq_of_mem_replicate hf]
    simp [BloomFilter.new]
  have hbits := bulkInsertSorted_bits_length (ChunkBloomFilter.new nrows cs) u hnew
  have hlen := bulkInsertSorted_chunk_filters_length (ChunkBloomFilter.new nrows cs) u
  simp only [ChunkBloomFilter.serialize, List.length_append, u32le, length_leEnc]
  rw [length_flatten_const _ 9 _
    (by intro f hf; simp [List.length_cons, hbits f hf])]
  rw [hlen]
  simp [ChunkBloomFilter.new, List.length_replicate]

theorem slice_concat {P S Q : List Nat} {off len : Nat} (hP : P.length = off)
    (hS : S.length = len) : ((P ++ (S ++ Q)).drop off).take len = S := by
  rw [drop_of_length_eq hP, take_of_length_eq hS]

theorem drop_concat_add {α : Type} (A B : List α) (n : Nat) :
    (A ++ B).drop (A.length + n) = B.drop n := by
  induction A with
  | nil => simp
  | cons x xs ih =>
    have h1 : (x :: xs).length + n = (xs.length + n) + 1 := by
      simp [List.length_cons]; omega
    rw [h1]
    show (x :: (xs ++ B)).drop ((xs.length + n) + 1) = B.drop n
    rw [List.drop_succ_cons]
    exact ih

theorem flatten_slice (sz : Nat) (l : List (List Nat))
    (h : ∀ x ∈ l, x.length = sz) (i : Nat) (hi : i < l.length) :
    ((l.flatten).drop (i * sz)).take sz = l.getD i [] := by
  induction l generalizing i with
  | nil => cases hi
  | cons a t ih =>
    cases i with
    | zero =>
      simp only [List.flatten_cons, Nat.zero_mul, List.drop_zero,
        List.getD_cons_zero]
      exact take_of_length_eq (h a (by simp))
    | succ j =>
      have hsz : a.length = sz := h a (by simp)
      have hstep : (((a :: t).flatten).drop ((j + 1) * sz)).take sz
          = ((t.flatten).drop (j * sz)).take sz := by
        simp only [List.flatten_cons]
        have h1 : (j + 1) * sz = a.length + j * sz := by rw [hsz]; ring
        rw [h1, drop_concat_add]
      rw [hstep, ih (fun x hx => h x (by simp [hx])) j (by simpa using hi)]
      simp [List.getD_cons_succ]

theorem map_range_eq_of_getD (n : Nat) (f : Nat → Nat) (vals : List Nat)
    (hlen : vals.length = n) (h : ∀ i, i < n → f i = vals.getD i 0) :
    (List.range n).map f = vals := by
  apply List.ext_getElem (by simp [hlen])
  intro i h1 h2
  simp only [List.getElem_map, List.getElem_range]
  rw [h i (by simpa using h1)]
  rw [List.getD_eq_getElem?_getD, List.getElem?_eq_getElem h2]
  rfl

theorem create_typed_slice_flatten (sz off : Nat) (hsz : 0 < sz)
    (hoff : off % sz = 0) (vals : List Nat) :
    create_typed_slice sz off ((vals.map (leEnc sz)).flatten)
      = .ok (vals.map (fun v => v % 256 ^ sz)) := by
  have hflen : ((vals.map (leEnc sz)).flatten).length = vals.length * sz :=
    length_flatten_const _ sz _ (fun x _ => length_leEnc sz x)
  unfold create_typed_slice
  rw [if_neg (by rw [hflen]; simp [Nat.mul_mod_left])]
  rw [if_neg (by simp [hoff])]
  congr 1
  have hdiv : ((vals.map (leEnc sz)).flatten).length / sz = vals.length := by
    rw [hflen, Nat.mul_div_cancel _ hsz]
  rw [hdiv]
  apply map_range_eq_of_getD _ _ _ (by simp)
  intro i hi
  have hslice : (((vals.map (leEnc sz)).flatten).drop (i * sz)).take sz
      = (vals.map (leEnc sz)).getD i [] := by
    apply flatten_slice sz _ _ i (by simpa using hi)
    intro x hx
    rw [List.mem_map] at hx
    obtain ⟨v, _, rfl⟩ := hx
    exact length_leEnc sz v
  rw [hslice]
  have hgetD : (vals.map (leEnc sz)).getD i [] = leEnc sz (vals.getD i 0) := by
    rw [List.getD_eq_getElem?_getD, List.getElem?_map,
      List.getElem?_eq_getElem hi, List.getD_eq_getElem?_getD,
      List.getElem?_eq_getElem hi]
    rfl
  rw [hgetD, leDec_leEnc]
  simp [List.getD_eq_getElem?_getD, List.getElem?_map,
    List.getElem?_eq_getElem hi]

theorem create_u32_slice_flatten (off : Nat) (hoff : off % 4 = 0)
    (vals : List Nat) (hov : vals.length * 4 < 2 ^ 64) :
    create_u32_slice off ((vals.map (leEnc 4)).flatten)
      = .ok (vals.map (fun v => v % 256 ^ 4)) := by
  have hflen : ((vals.map (leEnc 4)).flatten).length = vals.length * 4 :=
    length_flatten_const _ 4 _ (fun x _ => length_leEnc 4 x)
  unfold create_u32_slice
  have hval : validate_u32_array_size ((vals.map (leEnc 4)).flatten).length
      = .ok vals.length := by
    unfold validate_u32_array_size
    rw [if_neg (by rw [hflen]; simp [Nat.mul_mod_left])]
    have hcount : ((vals.map (leEnc 4)).flatten).length / 4 = vals.length := by
      rw [hflen, Nat.mul_div_cancel _ (by omega)]
    rw [hcount]
    rw [if_neg (by omega), if_neg (by omega)]
  rw [hval, bindE_ok, create_typed_slice_flatten 4 off (by omega) hoff, bindE_ok]
  rw [if_neg (by simp)]
  rfl

theorem map_mod_eq_self (k : Nat) (l : List Nat) (h : ∀ v ∈ l, v < k) :
    l.map (fun v => v % k) = l := by
  have := List.map_congr_left (fun v hv => Nat.mod_eq_of_lt (h v hv))
  rw [this]
  simp

theorem zip_map_entries (l : List (Nat × Nat × Nat)) :
    (l.map (fun t => t.1)).zip
      ((l.map (fun t => t.2.1)).zip (l.map (fun t => t.2.2))) = l := by
  induction l with
  | nil => rfl
  | cons a t ih =>
    obtain ⟨r, c, v⟩ := a
    simp [ih]

theorem filterMap_congr_mem {α β : Type} (l : List α) (f g : α → Option β)
    (h : ∀ a ∈ l, f a = g a) : l.filterMap f = l.filterMap g := by
  induction l with
  | nil => rfl
  | cons a t ih =>
    simp only [List.filterMap_cons]
    rw [h a (by simp), ih (fun x hx => h x (by simp [hx]))]

theorem scanGet_mem (nrows ncols : Nat) (l : List (Nat × Nat × Nat))
    (hb : ∀ t ∈ l, t.1 < nrows ∧ t.2.1 < ncols)
    (hdis : l.Pairwise (fun a b => ¬(a.1 = b.1 ∧ a.2.1 = b.2.1)))
    (t : Nat × Nat × Nat) (ht : t ∈ l) :
    scanGet nrows ncols t.1 t.2.1 l = .ok (some t.2.2) := by
  induction l with
  | nil => cases ht
  | cons a as ih =>
    obtain ⟨r, c, v⟩ := a
    rw [List.pairwise_cons] at hdis
    have hbh := hb (r, c, v) (by simp)
    simp only [scanGet]
    rw [if_neg (not_le.mpr hbh.1), if_neg (not_le.mpr hbh.2)]
    by_cases hmatch : r = t.1 ∧ c = t.2.1
    · rw [if_pos hmatch]
      rcases List.mem_cons.mp ht with heq | hmem
      · subst heq; rfl
      · exact absurd ⟨hmatch.1, hmatch.2⟩ (hdis.1 t hmem)
    · rw [if_neg hmatch]
      have hmem : t ∈ as := by
        rcases List.mem_cons.mp ht with heq | hmem
        · subst heq; exact absurd ⟨rfl, rfl⟩ hmatch
        · exact hmem
      exact ih (fun x hx => hb x (by simp [hx])) hdis.2 hmem

theorem calculate_eval (sz nnz : Nat) (hsz : sz = 4 ∨ sz = 8)
    (hov : nnz * 8 < 2 ^ 64) :
    FileLayout.calculate sz nnz = .ok
      { values_offset := 160, values_size := nnz * sz
        indices_0_offset := 160 + nnz * sz, indices_0_size := nnz * 4
        indices_1_offset := 160 + nnz * sz + nnz * 4
        indices_1_size := nnz * 4 } := by
  have h160 : divCeil 160 sz * sz = 160 :=
    divCeil_mul_of_dvd 160 sz (by rcases hsz with rfl | rfl <;> omega)
      (by rcases hsz with rfl | rfl
          · exact ⟨40, rfl⟩
          · exact ⟨20, rfl⟩)
  have h1 : divCeil (160 + nnz * sz) 4 * 4 = 160 + nnz * sz :=
    divCeil_mul_of_dvd _ 4 (by omega)
      (by rcases hsz with rfl | rfl
          · exact ⟨40 + nnz, by ring⟩
          · exact ⟨40 + 2 * nnz, by ring⟩)
  have h2 : divCeil (160 + nnz * sz + nnz * 4) 4 * 4 = 160 + nnz * sz + nnz * 4 :=
    divCeil_mul_of_dvd _ 4 (by omega)
      (by rcases hsz with rfl | rfl
          · exact ⟨40 + nnz + nnz, by ring⟩
          · exact ⟨40 + 2 * nnz + nnz, by ring⟩)
  simp only [FileLayout.calculate, h160]
  rw [if_neg (by rcases hsz with rfl | rfl <;> omega)]
  rw [h1]
  rw [if_neg (by omega)]
  rw [h2]


set_option maxHeartbeats 1000000 in
theorem fromFile_concat (sz : Nat) (hsz0 : 0 < sz) (h160 : 160 % sz = 0)
    (hdr : BspcHeader) (wf : hdr.WF) (hm : hdr.magic = magicBSPC)
    (hv : hdr.version = 1) (hr : 0 < hdr.nrows) (hc : 0 < hdr.ncols)
    (hprod : hdr.nrows * hdr.ncols < 2 ^ 64)
    (hnnzb : hdr.nnz ≤ hdr.nrows * hdr.ncols)
    (vals rowsv colsv bloomB : List Nat)
    (hlv : hdr.values_offset = 160)
    (hsv : hdr.values_size = vals.length * sz)
    (hlr : hdr.indices_0_offset = 160 + vals.length * sz)
    (hsr : hdr.indices_0_size = vals.length * 4)
    (hlc : hdr.indices_1_offset = 160 + vals.length * sz + vals.length * 4)
    (hsc : hdr.indices_1_size = vals.length * 4)
    (hnz : hdr.nnz = vals.length)
    (hrl : rowsv.length = vals.length) (hcl : colsv.length = vals.length)
    (hvlt : ∀ v ∈ vals, v < 256 ^ sz)
    (hrlt : ∀ v ∈ rowsv, v < 2 ^ 32) (hclt : ∀ v ∈ colsv, v < 2 ^ 32)
    (hmod4 : (vals.length * sz) % 4 = 0)
    (hend : 160 + vals.length * sz + vals.length * 4 + vals.length * 4
      + bloomB.length < 2 ^ 64) :
    ∃ bf, MmapMatrix.fromFile sz
      (hdr.toBytes ++ ((vals.map (leEnc sz)).flatten ++
        ((rowsv.map (leEnc 4)).flatten ++ ((colsv.map (leEnc 4)).flatten ++ bloomB))))
      = .ok { header := hdr, values := vals, row_indices := rowsv
              col_indices := colsv, chunk_bloom_filter := bf } := by
  have h4 : hdr.magic.length = 4 := by rw [hm]; rfl
  have h32 : hdr.reserved.length = 32 := by
    obtain ⟨-, -, -, -, -, -, -, -, -, -, -, -, -, -, -, -, -, -, -, -, -,
      hx, -⟩ := wf
    exact hx
  have hHB : hdr.toBytes.length = 160 := length_toBytes hdr h4 h32
  set VB := (vals.map (leEnc sz)).flatten with hVBdef
  set RB := (rowsv.map (leEnc 4)).flatten with hRBdef
  set CB := (colsv.map (leEnc 4)).flatten with hCBdef
  set B := hdr.toBytes ++ (VB ++ (RB ++ (CB ++ bloomB))) with hBdef
  have hVB : VB.length = vals.length * sz := by
    rw [hVBdef]; exact length_flatten_const _ sz _ (fun x _ => length_leEnc sz x)
  have hRB : RB.length = vals.length * 4 := by
    rw [hRBdef, length_flatten_const _ 4 _ (fun x _ => length_leEnc 4 x), hrl]
  have hCB : CB.length = vals.length * 4 := by
    rw [hCBdef, length_flatten_const _ 4 _ (fun x _ => length_leEnc 4 x), hcl]
  have hlenB : B.length = 160 + vals.length * sz + vals.length * 4
      + vals.length * 4 + bloomB.length := by
    rw [hBdef]
    simp only [List.length_append, hHB, hVB, hRB, hCB]
    omega
  have hdecode : decodeHeaderMapErr B = .ok hdr := by
    unfold decodeHeaderMapErr
    rw [hBdef, take_of_length_eq hHB,
      fromBytes_ok_of_valid hdr wf hm hv hr hc hprod hnnzb]
  have hsliceV : (B.drop 160).take (vals.length * sz) = VB := by
    rw [hBdef]; exact slice_concat hHB hVB
  have hV : create_typed_slice sz 160 ((B.drop 160).take (vals.length * sz))
      = .ok vals := by
    rw [hsliceV, hVBdef, create_typed_slice_flatten sz 160 hsz0 h160,
      map_mod_eq_self _ _ hvlt]
  have h2562 : (256 : Nat) ^ 4 = 2 ^ 32 := by norm_num
  have hassoc1 : B = (hdr.toBytes ++ VB) ++ (RB ++ (CB ++ bloomB)) := by
    rw [hBdef]; simp [List.append_assoc]
  have hsliceR : (B.drop (160 + vals.length * sz)).take (vals.length * 4)
      = RB := by
    rw [hassoc1]
    exact slice_concat (by simp [hHB, hVB]) hRB
  have hR : create_u32_slice (160 + vals.length * sz)
      ((B.drop (160 + vals.length * sz)).take (vals.length * 4)) = .ok rowsv := by
    rw [hsliceR, hRBdef,
      create_u32_slice_flatten _ (by omega) _ (by rw [hrl]; omega)]
    rw [h2562, map_mod_eq_self _ _ hrlt]
  have hassoc2 : B = ((hdr.toBytes ++ VB) ++ RB) ++ (CB ++ bloomB) := by
    rw [hBdef]; simp [List.append_assoc]
  have hsliceC : (B.drop (160 + vals.length * sz + vals.length * 4)).take
      (vals.length * 4) = CB := by
    rw [hassoc2]
    exact slice_concat (by simp [hHB, hVB, hRB]; omega) hCB
  have hC2 : create_u32_slice (160 + vals.length * sz + vals.length * 4)
      ((B.drop (160 + vals.length * sz + vals.length * 4)).take
        (vals.length * 4)) = .ok colsv := by
    rw [hsliceC, hCBdef,
      create_u32_slice_flatten _ (by omega) _ (by rw [hcl]; omega)]
    rw [h2562, map_mod_eq_self _ _ hclt]
  simp only [MmapMatrix.fromFile]
  rw [if_neg (by omega)]
  rw [hdecode]
  simp only [bindE_ok]
  simp only [hlv, hsv, hlr, hsr, hlc, hsc, hnz]
  rw [if_neg (by omega)]
  rw [if_neg (by omega)]
  rw [if_neg (by omega)]
  rw [if_neg (by omega)]
  rw [if_neg (by simp [h160])]
  rw [if_neg (by omega)]
  rw [if_neg (by omega)]
  simp only [hV, bindE_ok]
  simp only [hR, bindE_ok]
  simp only [hC2, bindE_ok]
  rw [if_neg (by simp [hrl, hcl])]
  rw [if_neg (by simp)]
  exact ⟨_, rfl⟩

theorem writerHeader_toBytes_length (dt nrows ncols nnz bloomLen : Nat)
    (layout : FileLayout) :
    (writerHeader dt nrows ncols nnz bloomLen layout).toBytes.length = 160 :=
  length_toBytes _ rfl rfl

theorem write_eval (sz dt nrows ncols chunk_size : Nat)
    (triples : List (Nat × Nat × Nat))
    (hsz : sz = 4 ∨ sz = 8) (hnnz32 : triples.length < 2 ^ 32)
    (hrowlt : ∀ t ∈ triples, t.1 < 2 ^ 32)
    (hcollt : ∀ t ∈ triples, t.2.1 < 2 ^ 32) :
    writeSparseMatrix sz dt nrows ncols triples chunk_size = .ok
      ((writerHeader dt nrows ncols triples.length
          ((createBloomFilter triples nrows chunk_size).serialize).length
          ⟨160, triples.length * sz, 160 + triples.length * sz,
            triples.length * 4, 160 + triples.length * sz + triples.length * 4,
            triples.length * 4⟩).toBytes ++
        (((triples.map (fun t => t.2.2)).map (leEnc sz)).flatten ++
          (((triples.map (fun t => t.1)).map (leEnc 4)).flatten ++
            (((triples.map (fun t => t.2.1)).map (leEnc 4)).flatten ++
              (createBloomFilter triples nrows chunk_size).serialize)))) := by
  have hval_map : triples.map (fun t => leEnc sz t.2.2)
      = (triples.map (fun t => t.2.2)).map (leEnc sz) := by
    rw [List.map_map]
    rfl
  have hrow_map : triples.map (fun t => u32le (t.1 % 2 ^ 32))
      = (triples.map (fun t => t.1)).map (leEnc 4) := by
    rw [List.map_map]
    apply List.map_congr_left
    intro t ht
    simp only [u32le, Function.comp]
    rw [Nat.mod_eq_of_lt (hrowlt t ht)]
  have hcol_map : triples.map (fun t => u32le (t.2.1 % 2 ^ 32))
      = (triples.map (fun t => t.2.1)).map (leEnc 4) := by
    rw [List.map_map]
    apply List.map_congr_left
    intro t ht
    simp only [u32le, Function.comp]
    rw [Nat.mod_eq_of_lt (hcollt t ht)]
  have hcalc := calculate_eval sz triples.length hsz (by omega)
  simp only [writeSparseMatrix, hcalc, bindE_ok, pureE]
  rw [writerHeader_toBytes_length]
  simp only [Nat.sub_self, List.replicate_zero, List.nil_append,
    List.append_nil]
  rw [hval_map, hrow_map, hcol_map]
  simp only [List.append_assoc]

set_option maxHeartbeats 1000000 in
/-- C1: write/read round trip: for every in-range input (element size 4 or 8,
positive dimensions below `2^32`, in-bounds entries with pairwise-distinct
coordinates, values fitting the element width), `write_sparse_matrix`
produces a byte stream that `MmapMatrix::from_file` opens, and the reader's
`get_element` returns every written value while `row_view r` yields exactly
the `(col, value)` pairs of the input triples with row `r`, in order. -/
theorem C1_write_read_roundtrip (sz dt nrows ncols chunk_size : Nat)
    (triples : List (Nat × Nat × Nat))
    (hsz : sz = 4 ∨ sz = 8) (hdt : dt < 256) (hcs : 0 < chunk_size)
    (hnr : 0 < nrows) (hnc : 0 < ncols)
    (hnr32 : nrows < 2 ^ 32) (hnc32 : ncols < 2 ^ 32)
    (hnnz32 : triples.length < 2 ^ 32)
    (hnnzb : triples.length ≤ nrows * ncols)
    (hbound : ∀ t ∈ triples, t.1 < nrows ∧ t.2.1 < ncols ∧ t.2.2 < 256 ^ sz)
    (hdis : triples.Pairwise (fun a b => ¬(a.1 = b.1 ∧ a.2.1 = b.2.1))) :
    ∃ bytes m,
      writeSparseMatrix sz dt nrows ncols triples chunk_size = .ok bytes ∧
      MmapMatrix.fromFile sz bytes = .ok m ∧
      (∀ t ∈ triples, m.get_element t.1 t.2.1 = .ok (some t.2.2)) ∧
      (∀ row, row < nrows →
        m.row_view row = .ok (triples.filterMap (fun t =>
          if t.1 = row then some (t.2.1, t.2.2) else none))) := by
  have hrowlt : ∀ t ∈ triples, t.1 < 2 ^ 32 :=
    fun t ht => lt_trans (hbound t ht).1 hnr32
  have hcollt : ∀ t ∈ triples, t.2.1 < 2 ^ 32 :=
    fun t ht => lt_trans (hbound t ht).2.1 hnc32
  have hwrite := write_eval sz dt nrows ncols chunk_size triples hsz hnnz32
    hrowlt hcollt
  have hbloomlen : ((createBloomFilter triples nrows chunk_size).serialize).length
      = 12 + divCeil nrows chunk_size * 9 :=
    serialize_length_new_bulk nrows chunk_size _
  have hdc : divCeil nrows chunk_size ≤ nrows := divCeil_le_self nrows chunk_size hcs
  have hprod0 : nrows * ncols < 2 ^ 64 := by
    have h1 : nrows * ncols ≤ (2 ^ 32 - 1) * (2 ^ 32 - 1) :=
      Nat.mul_le_mul (by omega) (by omega)
    omega
  have hwf : (writerHeader dt nrows ncols triples.length
      ((createBloomFilter triples nrows chunk_size).serialize).length
      ⟨160, triples.length * sz, 160 + triples.length * sz, triples.length * 4,
        160 + triples.length * sz + triples.length * 4,
        triples.length * 4⟩).WF := by
    refine ⟨?_, ?_, ?_, ?_, ?_, ?_, ?_, ?_, ?_, ?_, ?_, ?_, ?_, ?_, ?_, ?_,
      ?_, ?_, ?_, ?_, ?_, ?_, ?_⟩
    · rfl
    · show ∀ b ∈ magicBSPC, b < 256; decide
    · show (1 : Nat) < 256; decide
    · show (0 : Nat) < 256; decide
    · exact hdt
    · show (0 : Nat) < 256; decide
    · show nrows < 2 ^ 64; omega
    · show ncols < 2 ^ 64; omega
    · show triples.length < 2 ^ 64; omega
    · show (160 : Nat) < 2 ^ 64; omega
    · show triples.length * sz < 2 ^ 64
      rcases hsz with rfl | rfl <;> omega
    · show 160 + triples.length * sz < 2 ^ 64
      rcases hsz with rfl | rfl <;> omega
    · show triples.length * 4 < 2 ^ 64; omega
    · show 160 + triples.length * sz + triples.length * 4 < 2 ^ 64
      rcases hsz with rfl | rfl <;> omega
    · show triples.length * 4 < 2 ^ 64; omega
    · show (0 : Nat) < 2 ^ 64; omega
    · show (0 : Nat) < 2 ^ 64; omega
    · show (0 : Nat) < 2 ^ 64; omega
    · show (0 : Nat) < 2 ^ 64; omega
    · show 160 + triples.length * sz + triples.length * 4 + triples.length * 4
        < 2 ^ 64
      rcases hsz with rfl | rfl <;> omega
    · show ((createBloomFilter triples nrows chunk_size).serialize).length < 2 ^ 64
      rw [hbloomlen]; omega
    · rfl
    · show ∀ b ∈ List.replicate 32 0, b < 256; decide
  obtain ⟨bf, hff⟩ := fromFile_concat sz
    (by rcases hsz with rfl | rfl <;> omega)
    (by rcases hsz with rfl | rfl <;> decide)
    (writerHeader dt nrows ncols triples.length
      ((createBloomFilter triples nrows chunk_size).serialize).length
      ⟨160, triples.length * sz, 160 + triples.length * sz, triples.length * 4,
        160 + triples.length * sz + triples.length * 4, triples.length * 4⟩)
    hwf rfl rfl hnr hnc hprod0 hnnzb
    (triples.map (fun t => t.2.2)) (triples.map (fun t => t.1))
    (triples.map (fun t => t.2.1))
    ((createBloomFilter triples nrows chunk_size).serialize)
    rfl (by rw [List.length_map]; rfl) (by rw [List.length_map]; rfl)
    (by rw [List.length_map]; rfl) (by rw [List.length_map]; rfl)
    (by rw [List.length_map]; rfl)
    (by rw [List.length_map]; rfl)
    (by simp [List.length_map]) (by simp [List.length_map])
    (by intro v hv'
        rw [List.mem_map] at hv'
        obtain ⟨t, ht, rfl⟩ := hv'
        exact (hbound t ht).2.2)
    (by intro v hv'
        rw [List.mem_map] at hv'
        obtain ⟨t, ht, rfl⟩ := hv'
        exact hrowlt t ht)
    (by intro v hv'
        rw [List.mem_map] at hv'
        obtain ⟨t, ht, rfl⟩ := hv'
        exact hcollt t ht)
    (by rw [List.length_map]; rcases hsz with rfl | rfl <;> omega)
    (by rw [List.length_map, hbloomlen]; rcases hsz with rfl | rfl <;> omega)
  refine ⟨_, _, hwrite, hff, ?_, ?_⟩
  · intro t ht
    simp only [MmapMatrix.get_element, MmapMatrix.entries, writerHeader]
    rw [if_neg (not_le.mpr (hbound t ht).1)]
    rw [if_neg (not_le.mpr (hbound t ht).2.1)]
    rw [if_neg (by simp [List.length_map])]
    rw [zip_map_entries]
    exact scanGet_mem nrows ncols triples
      (fun x hx => ⟨(hbound x hx).1, (hbound x hx).2.1⟩) hdis t ht
  · intro row hrow
    simp only [MmapMatrix.row_view, MmapMatrix.entries, writerHeader]
    rw [if_neg (not_le.mpr hrow)]
    rw [zip_map_entries]
    refine congrArg Except.ok (filterMap_congr_mem _ _ _ ?_)
    intro t ht
    by_cases hteq : t.1 = row
    · rw [if_pos ⟨hteq, (hbound t ht).1, (hbound t ht).2.1⟩, if_pos hteq]
    · rw [if_neg (by simp [hteq]), if_neg hteq]

/-- The S1-style sample: a 3×3 COO matrix with five entries, sorted by row. -/
def sampleTriples : List (Nat × Nat × Nat) :=
  [(0, 0, 10), (0, 2, 20), (1, 1, 30), (2, 0, 40), (2, 2, 50)]

theorem C1_write_read_roundtrip_witness :
    ∃ bytes m,
      writeSparseMatrix 8 1 3 3 sampleTriples 4 = .ok bytes ∧
      MmapMatrix.fromFile 8 bytes = .ok m ∧
      (∀ t ∈ sampleTriples, m.get_element t.1 t.2.1 = .ok (some t.2.2)) ∧
      (∀ row, row < 3 →
        m.row_view row = .ok (sampleTriples.filterMap (fun t =>
          if t.1 = row then some (t.2.1, t.2.2) else none))) :=
  C1_write_read_roundtrip 8 1 3 3 4 sampleTriples (Or.inr rfl) (by decide)
    (by decide) (by decide) (by decide) (by decide) (by decide) (by decide)
    (by decide) (by decide) (by decide)

set_option maxRecDepth 20000 in
/-- C1 counterexample: the input `nrows = 2^32 + 1`, one triple at row
`2^32`, satisfies the claimed invariants (`row < nrows`, `col < ncols`,
`nnz = len`), yet the writer stores the row index as `row as u32 = 0`, the
file opens fine, and `get_element(2^32, 0)` finds nothing — the written
value 7 is lost without any error. -/
theorem C1_truncation_cex :
    (writeSparseMatrix 8 1 (2 ^ 32 + 1) 1 [(2 ^ 32, 0, 7)] (2 ^ 32)).bind
      (fun bytes => (MmapMatrix.fromFile 8 bytes).bind
        (fun m => m.get_element (2 ^ 32) 0)) = .ok none := by
  decide
